import Mathlib

/-!
# MentOS core: buddy-system page allocator and scheduler dispatcher

A shallow embedding of the MentOS physical page allocator
(`mem/buddy_system.c`) and of the scheduler policy dispatcher
(`process/scheduler_algorithm.c`), together with theorems about the
embedded operations.

Machine pointers become page indices (`Nat`); the intrusive
doubly-linked lists (`list_head`) become Lean `List`s, with
`list_head_insert_after head` = push-front, `list_head_insert_before
head` = push-back, `list_head_remove` = erase, `list_head_pop` = pop of
the head.  Fallible C functions returning `NULL` return `Option`
results, paired with the (possibly partially mutated) state.
-/

namespace MentOS

/-- Modelled from the spec: `PAGE_SIZE` comes from `mem/paging.h`, which is
not among the sources; the spec expresses the space observers "in bytes via
PAGE_SIZE" (the x86 page size, 4096 bytes). -/
def PAGE_SIZE : Nat := 4096

/-- Cache level low limit after which allocation starts. -/
def LOW_WATERMARK_LEVEL : Nat := 10

/-- Cache level high limit, above it deallocation happens. -/
def HIGH_WATERMARK_LEVEL : Nat := 70

/-- Cache level midway limit, `(LOW + HIGH) / 2`. -/
def MID_WATERMARK_LEVEL : Nat := (LOW_WATERMARK_LEVEL + HIGH_WATERMARK_LEVEL) / 2

/-- Page descriptor (`bb_page_t`).  The two flag bits `FREE_PAGE` and
`ROOT_PAGE` become the booleans `free` and `root`; `order` is the block
order field.  (In `buddy_system_init` the C code leaves `order`
uninitialised on non-root pages; the model initialises it to 0, and no
theorem depends on the order field of a non-root page.) -/
structure BBPage where
  free : Bool
  root : Bool
  order : Nat
  deriving DecidableEq

/-- Free-area manager for one order (`bb_free_area_t`): the free list of
root page indices and the `nr_free` counter (kept separately from the
list, exactly as the C code keeps it). -/
structure FreeArea where
  free_list : List Nat
  nr_free : Nat
  deriving DecidableEq

/-- Buddy-system instance (`bb_instance_t`).  `max_order` stands for the
compile-time constant `MAX_BUDDYSYSTEM_GFP_ORDER` (its header is not among
the sources; the spec gives default 14), carried in the state so that the
spec's concrete scenarios with smaller maximum orders can be stated.
The page-cache list holds `Option Nat` entries because `cache_extend`
links the raw result of `bb_alloc_pages` — possibly `NULL` — into it. -/
structure BBInstance where
  max_order : Nat
  total_pages : Nat
  pages : List BBPage
  free_area : List FreeArea
  free_pages_cache_list : List (Option Nat)
  free_pages_cache_size : Nat
  deriving DecidableEq

/-- The page descriptor at index `i` (out-of-range reads return a dummy
all-clear descriptor; every verified path stays in range). -/
def BBInstance.pg (s : BBInstance) (i : Nat) : BBPage :=
  s.pages.getD i ⟨false, false, 0⟩

/-- Write the page descriptor at index `i`. -/
def BBInstance.setPg (s : BBInstance) (i : Nat) (p : BBPage) : BBInstance :=
  { s with pages := s.pages.set i p }

/-- The free list of order `k`. -/
def BBInstance.fl (s : BBInstance) (k : Nat) : List Nat :=
  (s.free_area.getD k ⟨[], 0⟩).free_list

/-- The `nr_free` counter of order `k`. -/
def BBInstance.nf (s : BBInstance) (k : Nat) : Nat :=
  (s.free_area.getD k ⟨[], 0⟩).nr_free

/-- Replace the free list of order `k`. -/
def BBInstance.setFl (s : BBInstance) (k : Nat) (l : List Nat) : BBInstance :=
  { s with free_area := s.free_area.set k ⟨l, s.nf k⟩ }

/-- Replace the `nr_free` counter of order `k`. -/
def BBInstance.setNf (s : BBInstance) (k : Nat) (n : Nat) : BBInstance :=
  { s with free_area := s.free_area.set k ⟨s.fl k, n⟩ }

/-- The linear scan of `bb_alloc_pages`: starting at order `k` and for
`fuel` further orders, return the first order whose free list is
non-empty (`!list_head_empty(&area->free_list)`). -/
def searchFreeArea (s : BBInstance) : Nat → Nat → Option Nat
  | _, 0 => none
  | k, fuel + 1 => if (s.fl k).isEmpty then searchFreeArea s (k + 1) fuel else some k

/-- The split loop of `bb_alloc_pages`: starting from a block of order
`target + c` rooted at `pageIdx`, repeatedly halve it, each time handing
the upper half (at `pageIdx + 2 ^ k`) to `free_area[k]` as a fresh root,
until the block has order `target`.  Returns `false` exactly on the
`pr_crit` path where the buddy page is not in the expected
`FREE ∧ ¬ROOT` state, mirroring the C `return NULL` that keeps the
mutations already made. -/
def bbSplit (pageIdx target : Nat) : Nat → BBInstance → BBInstance × Bool
  | 0, s => (s, true)
  | c + 1, s =>
    let k := target + c
    let buddyIdx := pageIdx + 2 ^ k
    let b := s.pg buddyIdx
    if b.free && !b.root then
      let s1 := s.setFl k (buddyIdx :: s.fl k)
      let s2 := s1.setNf k (s1.nf k + 1)
      let s3 := s2.setPg buddyIdx { b with order := k, root := true }
      bbSplit pageIdx target c s3
    else (s, false)

/-- `bb_alloc_pages(instance, order)`: returns the allocated root page
index (or `none`) together with the resulting instance state. -/
def bb_alloc_pages (s : BBInstance) (order : Nat) : Option Nat × BBInstance :=
  if s.max_order ≤ order then (none, s)
  else
    match searchFreeArea s order (s.max_order - order) with
    | none => (none, s)
    | some k =>
      match s.fl k with
      | [] => (none, s)
      | pageIdx :: rest =>
        let p := s.pg pageIdx
        let s1 := s.setFl k rest
        let s2 := s1.setPg pageIdx { p with free := false }
        if !p.root then (none, s2)
        else if s2.nf k == 0 then (none, s2)
        else
          let s3 := s2.setNf k (s2.nf k - 1)
          match bbSplit pageIdx order (k - order) s3 with
          | (s4, false) => (none, s4)
          | (s4, true) =>
            let q := s4.pg pageIdx
            (some pageIdx, s4.setPg pageIdx { q with order := order, root := true, free := false })

/-- The coalescing loop of `bb_free_pages`:  while the order is below
`max_order - 1` (tracked by the `fuel`, which starts at
`max_order - 1 - order`), look at the buddy `idx ^^^ 2 ^ ord`; if it is
out of range, return with `none` (the C code `return`s, skipping the
final insertion); if it fails `__page_is_buddy` (FREE and same order),
stop and install at `(idx, ord)`; otherwise unlink the buddy, forget the
higher-addressed of the two roots, and continue one order up from the
lower index. -/
def bbMerge : Nat → Nat → Nat → BBInstance → BBInstance × Option (Nat × Nat)
  | idx, ord, 0, s => (s, some (idx, ord))
  | idx, ord, fuel + 1, s =>
    let buddyIdx := idx ^^^ 2 ^ ord
    if s.total_pages ≤ buddyIdx then (s, none)
    else
      let b := s.pg buddyIdx
      if b.free && b.order == ord then
        let s1 := s.setFl ord ((s.fl ord).erase buddyIdx)
        let s2 := s1.setNf ord (s1.nf ord - 1)
        let forgot := max buddyIdx idx
        let f := s2.pg forgot
        let s3 := s2.setPg forgot { f with root := false, free := true }
        bbMerge (idx &&& buddyIdx) (ord + 1) fuel s3
      else (s, some (idx, ord))

/-- `bb_free_pages(instance, page)`: the caller's page pointer becomes the
page index `idx`.  The three reject branches (index out of range, page
already FREE, page not ROOT) return the instance unchanged. -/
def bb_free_pages (s : BBInstance) (idx : Nat) : BBInstance :=
  if s.total_pages ≤ idx then s
  else
    let p := s.pg idx
    if p.free then s
    else if !p.root then s
    else
      match bbMerge idx p.order (s.max_order - 1 - p.order) s with
      | (s1, none) => s1
      | (s1, some (ci, co)) =>
        let c := s1.pg ci
        let s2 := s1.setPg ci { c with order := co, root := true, free := true }
        let s3 := s2.setFl co (ci :: s2.fl co)
        s3.setNf co (s3.nf co + 1)

/-- The root-installation loop of `buddy_system_init`: starting at page
index `start`, install `n` blocks of order `ord` and size `bs = 2 ^ ord`,
appending each root to the tail of the free list
(`list_head_insert_before(&page->location.siblings, &area->free_list)`). -/
def installMaxBlocks (ord bs : Nat) : Nat → Nat → BBInstance → BBInstance
  | _, 0, s => s
  | start, n + 1, s =>
    let p := s.pg start
    let s1 := s.setPg start { p with order := ord, root := true }
    let s2 := s1.setFl ord (s1.fl ord ++ [start])
    let s3 := s2.setNf ord (s2.nf ord + 1)
    installMaxBlocks ord bs (start + bs) n s3

/-- `buddy_system_init`: all pages start `FREE`, all free areas empty,
then the region is carved into `total / 2 ^ (max_order - 1)` max-order
blocks; fails (`return 0`, modelled `none`) when `pages_count` is zero or
the region is not aligned to the max-order block size.  The cache fields
start empty (they are initialised by the zone allocator, outside this
file's sources). -/
def buddy_system_init (max_order pages_count : Nat) : Option BBInstance :=
  if pages_count == 0 then none
  else
    let s0 : BBInstance :=
      { max_order := max_order
        total_pages := pages_count
        pages := List.replicate pages_count { free := true, root := false, order := 0 }
        free_area := List.replicate max_order { free_list := [], nr_free := 0 }
        free_pages_cache_list := []
        free_pages_cache_size := 0 }
    let bs := 2 ^ (max_order - 1)
    let nblocks := pages_count / bs
    let s1 := installMaxBlocks (max_order - 1) bs 0 nblocks s0
    if nblocks * bs == pages_count then some s1 else none

/-- `buddy_system_get_total_space`. -/
def buddy_system_get_total_space (s : BBInstance) : Nat :=
  s.total_pages * PAGE_SIZE

/-- The accumulation loop of `buddy_system_get_free_space` over orders
`0, …, n-1`. -/
def sumFreeSpace (s : BBInstance) : Nat → Nat
  | 0 => 0
  | k + 1 => sumFreeSpace s k + s.nf k * 2 ^ k * PAGE_SIZE

/-- `buddy_system_get_free_space`: sum over all orders of
`nr_free * (1 << order) * PAGE_SIZE`. -/
def buddy_system_get_free_space (s : BBInstance) : Nat :=
  sumFreeSpace s s.max_order

/-- The accumulation loop of `buddy_system_get_cached_space`: the C loop
runs over every order but adds `free_pages_cache_size * PAGE_SIZE` each
time, never using the loop variable. -/
def sumCachedSpace (s : BBInstance) : Nat → Nat
  | 0 => 0
  | k + 1 => sumCachedSpace s k + s.free_pages_cache_size * PAGE_SIZE

/-- `buddy_system_get_cached_space`, exactly as written in the source. -/
def buddy_system_get_cached_space (s : BBInstance) : Nat :=
  sumCachedSpace s s.max_order

/-- `__cache_extend(instance, count)`: `count` times allocate an order-0
block and link the raw result — without any `NULL` test — at the front of
the cache list, incrementing `free_pages_cache_size` each time. -/
def cache_extend : Nat → BBInstance → BBInstance
  | 0, s => s
  | c + 1, s =>
    let (r, s1) := bb_alloc_pages s 0
    let s2 := { s1 with
      free_pages_cache_list := r :: s1.free_pages_cache_list
      free_pages_cache_size := s1.free_pages_cache_size + 1 }
    cache_extend c s2

/-- `__cache_shrink(instance, count)`: `count` times pop the cache head
and hand it to `bb_free_pages`, decrementing `free_pages_cache_size`.
Popping an empty list yields `NULL`, whose junk page pointer
`bb_free_pages` rejects on the bounds check, so only the counter moves;
likewise a `NULL` entry cached by an exhausted `cache_extend` frees
nothing. -/
def cache_shrink : Nat → BBInstance → BBInstance
  | 0, s => s
  | c + 1, s =>
    match s.free_pages_cache_list with
    | [] => cache_shrink c { s with free_pages_cache_size := s.free_pages_cache_size - 1 }
    | e :: rest =>
      let s1 := { s with free_pages_cache_list := rest }
      let s2 := match e with
        | some i => bb_free_pages s1 i
        | none => s1
      cache_shrink c { s2 with free_pages_cache_size := s2.free_pages_cache_size - 1 }

/-- `__cached_alloc(instance)`: refill from the buddy when below the low
watermark, then pop and return the cache head.  Note: the pop does not
decrement `free_pages_cache_size`. -/
def cached_alloc (s : BBInstance) : Option Nat × BBInstance :=
  let s1 :=
    if s.free_pages_cache_size < LOW_WATERMARK_LEVEL then
      cache_extend (MID_WATERMARK_LEVEL - s.free_pages_cache_size) s
    else s
  match s1.free_pages_cache_list with
  | [] => (none, s1)
  | e :: rest => (e, { s1 with free_pages_cache_list := rest })

/-- `__cached_free(instance, page)`: push the page onto the cache, then
shrink when above the high watermark.  Note: the push does not increment
`free_pages_cache_size`. -/
def cached_free (s : BBInstance) (idx : Nat) : BBInstance :=
  let s1 := { s with free_pages_cache_list := some idx :: s.free_pages_cache_list }
  if HIGH_WATERMARK_LEVEL < s1.free_pages_cache_size then
    cache_shrink (s1.free_pages_cache_size - MID_WATERMARK_LEVEL) s1
  else s1

/-- `bb_alloc_page_cached`. -/
def bb_alloc_page_cached (s : BBInstance) : Option Nat × BBInstance :=
  cached_alloc s

/-- `bb_free_page_cached`. -/
def bb_free_page_cached (s : BBInstance) (idx : Nat) : BBInstance :=
  cached_free s idx

/-! ## The public operation sequences of the spec

The spec's invariant claims quantify over sequences of the four public
operations after a successful init.  `SysState` pairs the instance with
ghost bookkeeping of the outstanding blocks: `allocated` holds the
`(index, order)` pairs returned by `bb_alloc_pages` and not yet freed,
`cachedOut` the order-0 pages handed out by `cached_alloc` and not yet
returned.  `applyOp` applies an operation when its caller obligation
holds (free only what was allocated, cached-free only what came from
cached-alloc, cached-alloc only when the buddy can cover the refill) and
is a no-op otherwise, so that quiescent points of arbitrary well-formed
call sequences are exactly the reachable states. -/

/-- A public operation of the allocator. -/
inductive BBOp where
  | alloc (order : Nat)
  | free (idx : Nat)
  | cachedAlloc
  | cachedFree (idx : Nat)
  deriving DecidableEq

/-- One system state: the instance plus the ghost record of outstanding
blocks. -/
structure SysState where
  inst : BBInstance
  allocated : List (Nat × Nat)
  cachedOut : List Nat
  deriving DecidableEq

/-- The caller obligation of `cached_alloc` (claim C10): every buddy
allocation of the refill must succeed and the final pop must find a real
page — i.e. afterwards no `NULL` sits in the cache and the result is a
page. -/
def cachedAllocOk (s : BBInstance) : Bool :=
  (cached_alloc s).1.isSome && ((cached_alloc s).2.free_pages_cache_list.all Option.isSome)

/-- Apply one public operation (with its caller obligation). -/
def applyOp (st : SysState) : BBOp → SysState
  | .alloc order =>
    let (r, inst1) := bb_alloc_pages st.inst order
    { st with
      inst := inst1
      allocated := (match r with | some i => (i, order) :: st.allocated | none => st.allocated) }
  | .free idx =>
    match st.allocated.find? (fun p => p.1 == idx) with
    | some p => { st with inst := bb_free_pages st.inst idx, allocated := st.allocated.erase p }
    | none => st
  | .cachedAlloc =>
    if cachedAllocOk st.inst then
      let (r, inst1) := cached_alloc st.inst
      { st with inst := inst1, cachedOut := r.getD 0 :: st.cachedOut }
    else st
  | .cachedFree idx =>
    if st.cachedOut.contains idx then
      { st with inst := cached_free st.inst idx, cachedOut := st.cachedOut.erase idx }
    else st

/-- The state right after a successful `buddy_system_init`. -/
def initState (maxOrder total : Nat) : Option SysState :=
  (buddy_system_init maxOrder total).map (fun inst => ⟨inst, [], []⟩)

/-- Run a sequence of public operations. -/
def runOps (st : SysState) (ops : List BBOp) : SysState :=
  ops.foldl applyOp st

/-- A state is reachable when it arises from a successful init (the
build constant `MAX_BUDDYSYSTEM_GFP_ORDER` is positive) followed by any
sequence of public operations. -/
def ReachableSys (st : SysState) : Prop :=
  ∃ maxOrder total st0 ops,
    1 ≤ maxOrder ∧ initState maxOrder total = some st0 ∧ st = runOps st0 ops

/-! ## The allocator invariant -/

/-- The outstanding blocks of a system state: buddy allocations, pages
sitting in the cache, and pages handed out by the cache (the latter two
always of order 0). -/
def outs (st : SysState) : List (Nat × Nat) :=
  st.allocated
    ++ st.inst.free_pages_cache_list.filterMap (fun e => e.map (fun i => (i, 0)))
    ++ st.cachedOut.map (fun i => (i, 0))

/-- The instance-level invariant, relative to a list `out` of
outstanding (allocated) blocks.  `root_ok` says every root descriptor
heads a well-formed aligned in-range block whose interior descriptors
are `FREE` and non-root; `cover` says every page lies in some root's
block; the list clauses tie the free lists, the `nr_free` counters and
the `FREE|ROOT` flags together; the `out` clauses say outstanding blocks
are non-`FREE` roots, pairwise distinct. -/
structure InstInv (s : BBInstance) (out : List (Nat × Nat)) : Prop where
  pages_len : s.pages.length = s.total_pages
  area_len : s.free_area.length = s.max_order
  max_pos : 1 ≤ s.max_order
  total_pos : 0 < s.total_pages
  total_align : 2 ^ (s.max_order - 1) ∣ s.total_pages
  root_ok : ∀ i, i < s.total_pages → (s.pg i).root = true →
    (s.pg i).order < s.max_order ∧ 2 ^ (s.pg i).order ∣ i ∧
    i + 2 ^ (s.pg i).order ≤ s.total_pages ∧
    (∀ j, i < j → j < i + 2 ^ (s.pg i).order → (s.pg j).root = false ∧ (s.pg j).free = true)
  cover : ∀ i, i < s.total_pages →
    ∃ r, r ≤ i ∧ (s.pg r).root = true ∧ i < r + 2 ^ (s.pg r).order
  lists_nodup : ∀ k, (s.fl k).Nodup
  nf_eq : ∀ k, s.nf k = (s.fl k).length
  mem_ok : ∀ k, ∀ i ∈ s.fl k, i < s.total_pages ∧ (s.pg i).root = true ∧
    (s.pg i).free = true ∧ (s.pg i).order = k ∧ k < s.max_order
  free_root_mem : ∀ i, i < s.total_pages → (s.pg i).root = true →
    (s.pg i).free = true → i ∈ s.fl ((s.pg i).order)
  out_ok : ∀ p ∈ out, p.1 < s.total_pages ∧ (s.pg p.1).root = true ∧
    (s.pg p.1).free = false ∧ (s.pg p.1).order = p.2
  out_nodup : (out.map Prod.fst).Nodup

/-- The system invariant: the instance invariant holds with the
outstanding blocks taken from the ghost state, and the cache holds no
`NULL` entry. -/
def SysInv (st : SysState) : Prop :=
  InstInv st.inst (outs st) ∧ ∀ e ∈ st.inst.free_pages_cache_list, e.isSome

/-- The invariant of the states threaded through the split loop of
`bb_alloc_pages` and the coalescing loop of `bb_free_pages`: the full
instance invariant, except that one block — the "hole", rooted at
`hidx` with virtual order `hord` — has been taken off the lists and is
being reshaped.  Its root keeps the `ROOT` flag (its `FREE` flag and
`order` field are in flux), its interior pages look like any free
block's interior, and it is on no list and not outstanding. -/
structure HoleInv (s : BBInstance) (hidx hord : Nat) (out : List (Nat × Nat)) : Prop where
  pages_len : s.pages.length = s.total_pages
  area_len : s.free_area.length = s.max_order
  max_pos : 1 ≤ s.max_order
  total_pos : 0 < s.total_pages
  total_align : 2 ^ (s.max_order - 1) ∣ s.total_pages
  hole_lt : hidx < s.total_pages
  hole_root : (s.pg hidx).root = true
  hole_ord_lt : hord < s.max_order
  hole_align : 2 ^ hord ∣ hidx
  hole_range : hidx + 2 ^ hord ≤ s.total_pages
  hole_interior : ∀ j, hidx < j → j < hidx + 2 ^ hord →
    (s.pg j).root = false ∧ (s.pg j).free = true
  hole_not_listed : ∀ k, hidx ∉ s.fl k
  hole_not_out : hidx ∉ out.map Prod.fst
  root_ok : ∀ i, i < s.total_pages → i ≠ hidx → (s.pg i).root = true →
    (s.pg i).order < s.max_order ∧ 2 ^ (s.pg i).order ∣ i ∧
    i + 2 ^ (s.pg i).order ≤ s.total_pages ∧
    (∀ j, i < j → j < i + 2 ^ (s.pg i).order → (s.pg j).root = false ∧ (s.pg j).free = true)
  cover : ∀ i, i < s.total_pages →
    ∃ r, r ≤ i ∧ (s.pg r).root = true ∧
      i < r + 2 ^ (if r = hidx then hord else (s.pg r).order)
  lists_nodup : ∀ k, (s.fl k).Nodup
  nf_eq : ∀ k, s.nf k = (s.fl k).length
  mem_ok : ∀ k, ∀ i ∈ s.fl k, i < s.total_pages ∧ (s.pg i).root = true ∧
    (s.pg i).free = true ∧ (s.pg i).order = k ∧ k < s.max_order
  free_root_mem : ∀ i, i < s.total_pages → i ≠ hidx → (s.pg i).root = true →
    (s.pg i).free = true → i ∈ s.fl ((s.pg i).order)
  out_ok : ∀ p ∈ out, p.1 < s.total_pages ∧ (s.pg p.1).root = true ∧
    (s.pg p.1).free = false ∧ (s.pg p.1).order = p.2
  out_nodup : (out.map Prod.fst).Nodup

/-- The cache contents as outstanding order-0 pairs. -/
def cachePairs (s : BBInstance) : List (Nat × Nat) :=
  s.free_pages_cache_list.filterMap (fun e => e.map (fun i => (i, 0)))

theorem outs_eq (st : SysState) :
    outs st = st.allocated ++ cachePairs st.inst ++ st.cachedOut.map (fun i => (i, 0)) := rfl

/-! ## Accessor lemmas -/

@[simp]
theorem setPg_max_order (s : BBInstance) (i : Nat) (p : BBPage) :
    (s.setPg i p).max_order = s.max_order := rfl

@[simp]
theorem setPg_total_pages (s : BBInstance) (i : Nat) (p : BBPage) :
    (s.setPg i p).total_pages = s.total_pages := rfl

@[simp]
theorem setPg_free_area (s : BBInstance) (i : Nat) (p : BBPage) :
    (s.setPg i p).free_area = s.free_area := rfl

@[simp]
theorem setPg_fl (s : BBInstance) (i : Nat) (p : BBPage) (k : Nat) :
    (s.setPg i p).fl k = s.fl k := rfl

@[simp]
theorem setPg_nf (s : BBInstance) (i : Nat) (p : BBPage) (k : Nat) :
    (s.setPg i p).nf k = s.nf k := rfl

@[simp]
theorem setPg_cache_list (s : BBInstance) (i : Nat) (p : BBPage) :
    (s.setPg i p).free_pages_cache_list = s.free_pages_cache_list := rfl

@[simp]
theorem setPg_cache_size (s : BBInstance) (i : Nat) (p : BBPage) :
    (s.setPg i p).free_pages_cache_size = s.free_pages_cache_size := rfl

@[simp]
theorem setPg_pages_length (s : BBInstance) (i : Nat) (p : BBPage) :
    (s.setPg i p).pages.length = s.pages.length := by
  simp [BBInstance.setPg]

theorem pg_setPg_self (s : BBInstance) {i : Nat} (p : BBPage) (h : i < s.pages.length) :
    (s.setPg i p).pg i = p := by
  simp [BBInstance.setPg, BBInstance.pg, List.getD_eq_getElem?_getD, List.getElem?_set_self, h]

theorem pg_setPg_ne (s : BBInstance) {i j : Nat} (p : BBPage) (h : i ≠ j) :
    (s.setPg i p).pg j = s.pg j := by
  simp [BBInstance.setPg, BBInstance.pg, List.getD_eq_getElem?_getD, List.getElem?_set_ne h]

@[simp]
theorem setFl_max_order (s : BBInstance) (k : Nat) (l : List Nat) :
    (s.setFl k l).max_order = s.max_order := rfl

@[simp]
theorem setFl_total_pages (s : BBInstance) (k : Nat) (l : List Nat) :
    (s.setFl k l).total_pages = s.total_pages := rfl

@[simp]
theorem setFl_pages (s : BBInstance) (k : Nat) (l : List Nat) :
    (s.setFl k l).pages = s.pages := rfl

@[simp]
theorem setFl_pg (s : BBInstance) (k : Nat) (l : List Nat) (i : Nat) :
    (s.setFl k l).pg i = s.pg i := rfl

@[simp]
theorem setFl_cache_list (s : BBInstance) (k : Nat) (l : List Nat) :
    (s.setFl k l).free_pages_cache_list = s.free_pages_cache_list := rfl

@[simp]
theorem setFl_cache_size (s : BBInstance) (k : Nat) (l : List Nat) :
    (s.setFl k l).free_pages_cache_size = s.free_pages_cache_size := rfl

@[simp]
theorem setFl_area_length (s : BBInstance) (k : Nat) (l : List Nat) :
    (s.setFl k l).free_area.length = s.free_area.length := by
  simp [BBInstance.setFl]

theorem fl_setFl_self (s : BBInstance) {k : Nat} (l : List Nat)
    (h : k < s.free_area.length) : (s.setFl k l).fl k = l := by
  simp [BBInstance.setFl, BBInstance.fl, List.getD_eq_getElem?_getD, List.getElem?_set_self, h]

theorem fl_setFl_ne (s : BBInstance) {k k' : Nat} (l : List Nat) (h : k ≠ k') :
    (s.setFl k l).fl k' = s.fl k' := by
  simp [BBInstance.setFl, BBInstance.fl, List.getD_eq_getElem?_getD, List.getElem?_set_ne h]

@[simp]
theorem nf_setFl (s : BBInstance) (k : Nat) (l : List Nat) (k' : Nat) :
    (s.setFl k l).nf k' = s.nf k' := by
  rcases eq_or_ne k k' with rfl | h
  · by_cases hk : k < s.free_area.length
    · simp [BBInstance.setFl, BBInstance.nf, BBInstance.fl, List.getD_eq_getElem?_getD,
        List.getElem?_set_self, hk]
    · simp [BBInstance.setFl, BBInstance.nf,
        List.set_eq_of_length_le (Nat.le_of_not_lt hk)]
  · simp [BBInstance.setFl, BBInstance.nf, List.getD_eq_getElem?_getD, List.getElem?_set_ne h]

@[simp]
theorem setNf_max_order (s : BBInstance) (k n : Nat) :
    (s.setNf k n).max_order = s.max_order := rfl

@[simp]
theorem setNf_total_pages (s : BBInstance) (k n : Nat) :
    (s.setNf k n).total_pages = s.total_pages := rfl

@[simp]
theorem setNf_pages (s : BBInstance) (k n : Nat) :
    (s.setNf k n).pages = s.pages := rfl

@[simp]
theorem setNf_pg (s : BBInstance) (k n i : Nat) :
    (s.setNf k n).pg i = s.pg i := rfl

@[simp]
theorem setNf_cache_list (s : BBInstance) (k n : Nat) :
    (s.setNf k n).free_pages_cache_list = s.free_pages_cache_list := rfl

@[simp]
theorem setNf_cache_size (s : BBInstance) (k n : Nat) :
    (s.setNf k n).free_pages_cache_size = s.free_pages_cache_size := rfl

@[simp]
theorem setNf_area_length (s : BBInstance) (k n : Nat) :
    (s.setNf k n).free_area.length = s.free_area.length := by
  simp [BBInstance.setNf]

@[simp]
theorem fl_setNf (s : BBInstance) (k n k' : Nat) :
    (s.setNf k n).fl k' = s.fl k' := by
  rcases eq_or_ne k k' with rfl | h
  · by_cases hk : k < s.free_area.length
    · simp [BBInstance.setNf, BBInstance.nf, BBInstance.fl, List.getD_eq_getElem?_getD,
        List.getElem?_set_self, hk]
    · simp [BBInstance.setNf, BBInstance.fl,
        List.set_eq_of_length_le (Nat.le_of_not_lt hk)]
  · simp [BBInstance.setNf, BBInstance.fl, List.getD_eq_getElem?_getD, List.getElem?_set_ne h]

theorem nf_setNf_self (s : BBInstance) {k : Nat} (n : Nat)
    (h : k < s.free_area.length) : (s.setNf k n).nf k = n := by
  simp [BBInstance.setNf, BBInstance.nf, List.getD_eq_getElem?_getD, List.getElem?_set_self, h]

theorem nf_setNf_ne (s : BBInstance) {k k' : Nat} (n : Nat) (h : k ≠ k') :
    (s.setNf k n).nf k' = s.nf k' := by
  simp [BBInstance.setNf, BBInstance.nf, List.getD_eq_getElem?_getD, List.getElem?_set_ne h]

/-! ## Arithmetic of buddy indices

The C code locates the buddy of an aligned block by `idx ^ (1 << order)`
and the coalesced root by `idx & buddy_idx`.  The following lemmas settle
that arithmetic for `Nat`. -/

theorem xorLow : ∀ (k m : Nat), (m * 2 ^ (k + 1)) ^^^ 2 ^ k = m * 2 ^ (k + 1) + 2 ^ k := by
  intro k
  induction k with
  | zero =>
    intro m
    have h1 : m * 2 ^ 1 = Nat.bit false m := by simp [Nat.bit_false]; ring
    have h2 : (2 : Nat) ^ 0 = Nat.bit true 0 := by simp [Nat.bit_true]
    rw [h1, h2, Nat.xor_bit]
    simp [Nat.bit_true, Nat.bit_false]
  | succ k ih =>
    intro m
    have h2 : (2 : Nat) ^ (k + 1) = Nat.bit false (2 ^ k) := by simp [Nat.bit_false]; ring
    have h1 : m * 2 ^ (k + 2) = Nat.bit false (m * 2 ^ (k + 1)) := by simp [Nat.bit_false]; ring
    rw [h2, h1, Nat.xor_bit]
    have hb : (false != false) = false := rfl
    rw [hb, ih m]
    simp [Nat.bit_false]
    ring

theorem xorHigh (k m : Nat) : (m * 2 ^ (k + 1) + 2 ^ k) ^^^ 2 ^ k = m * 2 ^ (k + 1) := by
  rw [← xorLow k m, Nat.xor_cancel_right]

theorem lowBitFalse (k m i : Nat) (h : i < k) : (m * 2 ^ k).testBit i = false := by
  rw [Nat.testBit_to_div_mod]
  have h2 : m * 2 ^ k = (m * 2 ^ (k - i - 1) * 2) * 2 ^ i := by
    rw [Nat.mul_assoc, Nat.mul_assoc]
    congr 1
    rw [← Nat.pow_succ']
    rw [← Nat.pow_add]
    congr 1
    omega
  rw [h2, Nat.mul_div_cancel _ (Nat.pos_pow_of_pos i (by norm_num))]
  simp [Nat.mul_mod_left]

theorem andBuddy (k m : Nat) : (m * 2 ^ (k + 1)) &&& (m * 2 ^ (k + 1) + 2 ^ k) = m * 2 ^ (k + 1) := by
  apply Nat.eq_of_testBit_eq
  intro i
  rw [Nat.testBit_and, ← xorLow k m, Nat.testBit_xor]
  rcases eq_or_ne i k with rfl | h
  · have hf : (m * 2 ^ (i + 1)).testBit i = false := lowBitFalse (i + 1) m i (Nat.lt_succ_self i)
    simp [hf]
  · simp [Nat.testBit_two_pow, Ne.symm h]

theorem alignedSplit (idx k : Nat) (h : 2 ^ k ∣ idx) :
    ∃ m, idx = m * 2 ^ (k + 1) ∨ idx = m * 2 ^ (k + 1) + 2 ^ k := by
  rcases h with ⟨t, ht⟩
  rcases Nat.even_or_odd t with ⟨u, hu⟩ | ⟨u, hu⟩
  · exact ⟨u, Or.inl (by subst ht hu; ring)⟩
  · exact ⟨u, Or.inr (by subst ht hu; ring)⟩

/-! ## The order search -/

theorem searchFreeArea_none (s : BBInstance) :
    ∀ fuel k, searchFreeArea s k fuel = none ↔ ∀ j, k ≤ j → j < k + fuel → s.fl j = [] := by
  intro fuel
  induction fuel with
  | zero => intro k; simp [searchFreeArea]; intro j h1 h2; omega
  | succ fuel ih =>
    intro k
    by_cases h : (s.fl k).isEmpty
    · rw [searchFreeArea, if_pos h, ih (k + 1)]
      have hk : s.fl k = [] := List.isEmpty_iff.mp h
      constructor
      · intro hall j hj1 hj2
        rcases Nat.eq_or_lt_of_le hj1 with rfl | hj
        · exact hk
        · exact hall j hj (by omega)
      · intro hall j hj1 hj2
        exact hall j (by omega) (by omega)
    · rw [searchFreeArea, if_neg h]
      constructor
      · intro hc
        exact absurd hc (Option.some_ne_none k)
      · intro hall
        exact absurd (List.isEmpty_iff.mpr (hall k (Nat.le_refl k) (by omega))) h

/-! ## Preservation through the split loop -/

theorem hole_disjoint (s : BBInstance) (idx hord : Nat) (out : List (Nat × Nat))
    (h : HoleInv s idx hord out) :
    ∀ i, i < s.total_pages → i ≠ idx → (s.pg i).root = true →
      ∀ j, i < j → j < i + 2 ^ (s.pg i).order → ¬(idx ≤ j ∧ j < idx + 2 ^ hord) := by
  intro i hiT hne hroot j hij hjm ⟨hj1, hj2⟩
  obtain ⟨-, -, -, hint⟩ := h.root_ok i hiT hne hroot
  rcases Nat.lt_trichotomy i idx with hlt | rfl | hgt
  · have hidxin : idx < i + 2 ^ (s.pg i).order := by omega
    have h2 := (hint idx hlt hidxin).1
    rw [h.hole_root] at h2
    exact Bool.noConfusion h2
  · exact hne rfl
  · by_cases hi2 : i < idx + 2 ^ hord
    · have h2 := (h.hole_interior i hgt hi2).1
      rw [hroot] at h2
      exact Bool.noConfusion h2
    · omega

theorem split_step (s : BBInstance) (idx k : Nat) (out : List (Nat × Nat))
    (h : HoleInv s idx (k + 1) out) :
    (s.pg (idx + 2 ^ k)).free = true ∧ (s.pg (idx + 2 ^ k)).root = false ∧
    HoleInv
      (((s.setFl k ((idx + 2 ^ k) :: s.fl k)).setNf k
          ((s.setFl k ((idx + 2 ^ k) :: s.fl k)).nf k + 1)).setPg (idx + 2 ^ k)
        { s.pg (idx + 2 ^ k) with order := k, root := true }) idx k out := by
  have hbin : idx < idx + 2 ^ k := Nat.lt_add_of_pos_right (Nat.pos_pow_of_pos k (by norm_num))
  have hpow : 2 ^ k + 2 ^ k = 2 ^ (k + 1) := by rw [Nat.pow_succ]; ring
  have hbhi : idx + 2 ^ k < idx + 2 ^ (k + 1) := by
    have : 2 ^ k < 2 ^ (k + 1) := Nat.pow_lt_pow_succ (by norm_num)
    omega
  obtain ⟨hbroot, hbfree⟩ := h.hole_interior (idx + 2 ^ k) hbin hbhi
  refine ⟨hbfree, hbroot, ?_⟩
  have hkM : k < s.max_order := Nat.lt_of_succ_lt h.hole_ord_lt
  have hkA : k < s.free_area.length := by rw [h.area_len]; exact hkM
  have hrange : idx + 2 ^ (k + 1) ≤ s.total_pages := h.hole_range
  have hbT : idx + 2 ^ k < s.total_pages := by omega
  set s1 := s.setFl k ((idx + 2 ^ k) :: s.fl k) with hs1
  set s2 := s1.setNf k (s1.nf k + 1) with hs2
  set s3 := s2.setPg (idx + 2 ^ k) { s.pg (idx + 2 ^ k) with order := k, root := true } with hs3
  have hpg_ne : ∀ j, j ≠ idx + 2 ^ k → s3.pg j = s.pg j := by
    intro j hj
    rw [hs3, pg_setPg_ne _ _ (Ne.symm hj)]
    simp [hs2, hs1]
  have hpg_b : s3.pg (idx + 2 ^ k) = { s.pg (idx + 2 ^ k) with order := k, root := true } := by
    rw [hs3]
    apply pg_setPg_self
    simp only [hs2, hs1, setNf_pages, setFl_pages]
    rw [h.pages_len]
    exact hbT
  have horder : (s3.pg (idx + 2 ^ k)).order = k := by rw [hpg_b]
  have hroot3 : (s3.pg (idx + 2 ^ k)).root = true := by rw [hpg_b]
  have hfree3 : (s3.pg (idx + 2 ^ k)).free = (s.pg (idx + 2 ^ k)).free := by rw [hpg_b]
  have hfl_k : s3.fl k = (idx + 2 ^ k) :: s.fl k := by
    rw [hs3, setPg_fl, hs2, fl_setNf, hs1, fl_setFl_self _ _ hkA]
  have hfl_ne : ∀ k', k' ≠ k → s3.fl k' = s.fl k' := by
    intro k' hk'
    rw [hs3, setPg_fl, hs2, fl_setNf, hs1, fl_setFl_ne _ _ (Ne.symm hk')]
  have hnf_k : s3.nf k = s.nf k + 1 := by
    rw [hs3, setPg_nf, hs2, nf_setNf_self _ _ (by simpa [hs1] using hkA), hs1, nf_setFl]
  have hnf_ne : ∀ k', k' ≠ k → s3.nf k' = s.nf k' := by
    intro k' hk'
    rw [hs3, setPg_nf, hs2, nf_setNf_ne _ _ (Ne.symm hk'), hs1, nf_setFl]
  have hb_not_mem : ∀ k', idx + 2 ^ k ∉ s.fl k' := by
    intro k' hmem
    have h2 := (h.mem_ok k' _ hmem).2.1
    rw [hbroot] at h2
    exact Bool.noConfusion h2
  have hT3 : s3.total_pages = s.total_pages := by simp [hs3, hs2, hs1]
  have hM3 : s3.max_order = s.max_order := by simp [hs3, hs2, hs1]
  have hlen3 : s3.pages.length = s.pages.length := by simp [hs3, hs2, hs1]
  have harea3 : s3.free_area.length = s.free_area.length := by simp [hs3, hs2, hs1]
  have hdisj := hole_disjoint s idx (k + 1) out h
  have halign : 2 ^ k ∣ idx :=
    dvd_trans (pow_dvd_pow 2 (Nat.le_succ k)) h.hole_align
  refine
    { pages_len := ?_
      area_len := ?_
      max_pos := ?_
      total_pos := ?_
      total_align := ?_
      hole_lt := ?_
      hole_root := ?_
      hole_ord_lt := ?_
      hole_align := ?_
      hole_range := ?_
      hole_interior := ?_
      hole_not_listed := ?_
      hole_not_out := ?_
      root_ok := ?_
      cover := ?_
      lists_nodup := ?_
      nf_eq := ?_
      mem_ok := ?_
      free_root_mem := ?_
      out_ok := ?_
      out_nodup := ?_ }
  · rw [hlen3, hT3]
    exact h.pages_len
  · rw [harea3, hM3]
    exact h.area_len
  · rw [hM3]; exact h.max_pos
  · rw [hT3]; exact h.total_pos
  · rw [hM3, hT3]; exact h.total_align
  · rw [hT3]; exact h.hole_lt
  · rw [hpg_ne idx (by omega)]; exact h.hole_root
  · rw [hM3]; exact hkM
  · exact halign
  · rw [hT3]; omega
  · intro j hj1 hj2
    rw [hpg_ne j (by omega)]
    exact h.hole_interior j hj1 (by omega)
  · intro k'
    rcases eq_or_ne k' k with rfl | hk'
    · rw [hfl_k]
      intro hmem
      rcases List.mem_cons.mp hmem with heq | hmem'
      · omega
      · exact h.hole_not_listed k' hmem'
    · rw [hfl_ne k' hk']
      exact h.hole_not_listed k'
  · exact h.hole_not_out
  · intro i hiT hne hroot
    rw [hT3] at hiT
    rcases eq_or_ne i (idx + 2 ^ k) with rfl | hib
    · rw [horder]
      refine ⟨by rw [hM3]; exact hkM, ?_, by rw [hT3]; omega, ?_⟩
      · obtain ⟨m, hm | hm⟩ := alignedSplit idx k halign
        · exact ⟨2 * m + 1, by rw [hm]; ring⟩
        · exact ⟨2 * m + 2, by rw [hm]; ring⟩
      · intro j hj1 hj2
        rw [hpg_ne j (by omega)]
        exact h.hole_interior j (by omega) (by omega)
    · rw [hpg_ne i hib] at hroot ⊢
      obtain ⟨ho1, ho2, ho3, ho4⟩ := h.root_ok i hiT hne hroot
      refine ⟨by rw [hM3]; exact ho1, ho2, by rw [hT3]; exact ho3, ?_⟩
      intro j hj1 hj2
      have hjne : j ≠ idx + 2 ^ k := by
        intro heq
        exact hdisj i hiT hne hroot j hj1 hj2 (by omega)
      rw [hpg_ne j hjne]
      exact ho4 j hj1 hj2
  · intro i hiT
    rw [hT3] at hiT
    obtain ⟨r, hr1, hr2, hr3⟩ := h.cover i hiT
    rcases eq_or_ne r idx with rfl | hrne
    · have hr3' : i < r + 2 ^ (k + 1) := by simpa using hr3
      by_cases hlow : i < r + 2 ^ k
      · exact ⟨r, hr1, by rw [hpg_ne r (by omega)]; exact h.hole_root, by simp [hlow]⟩
      · refine ⟨r + 2 ^ k, by omega, hroot3, ?_⟩
        have hne2 : r + 2 ^ k ≠ r := by omega
        rw [if_neg hne2, horder]
        omega
    · simp only [if_neg hrne] at hr3
      have hrb : r ≠ idx + 2 ^ k := by
        intro heq
        rw [heq, hbroot] at hr2
        exact Bool.noConfusion hr2
      refine ⟨r, hr1, by rw [hpg_ne r hrb]; exact hr2, ?_⟩
      rw [if_neg hrne, hpg_ne r hrb]
      exact hr3
  · intro k'
    rcases eq_or_ne k' k with rfl | hk'
    · rw [hfl_k]
      exact List.nodup_cons.mpr ⟨hb_not_mem k', h.lists_nodup k'⟩
    · rw [hfl_ne k' hk']
      exact h.lists_nodup k'
  · intro k'
    rcases eq_or_ne k' k with rfl | hk'
    · rw [hfl_k, hnf_k, h.nf_eq k']
      simp
    · rw [hfl_ne k' hk', hnf_ne k' hk']
      exact h.nf_eq k'
  · intro k' i hmem
    rcases eq_or_ne k k' with rfl | hk'
    · rw [hfl_k] at hmem
      rcases List.mem_cons.mp hmem with rfl | hmem'
      · rw [hT3, hM3, hroot3, hfree3, horder]
        exact ⟨hbT, rfl, hbfree, rfl, hkM⟩
      · obtain ⟨hm1, hm2, hm3, hm4, hm5⟩ := h.mem_ok k i hmem'
        have hine : i ≠ idx + 2 ^ k := fun heq => hb_not_mem k (heq ▸ hmem')
        rw [hpg_ne i hine, hT3, hM3]
        exact ⟨hm1, hm2, hm3, hm4, hm5⟩
    · rw [hfl_ne k' (Ne.symm hk')] at hmem
      obtain ⟨hm1, hm2, hm3, hm4, hm5⟩ := h.mem_ok k' i hmem
      have hine : i ≠ idx + 2 ^ k := fun heq => hb_not_mem k' (heq ▸ hmem)
      rw [hpg_ne i hine, hT3, hM3]
      exact ⟨hm1, hm2, hm3, hm4, hm5⟩
  · intro i hiT hne hroot hfree
    rw [hT3] at hiT
    rcases eq_or_ne i (idx + 2 ^ k) with rfl | hib
    · rw [horder, hfl_k]
      exact List.mem_cons_self _ _
    · rw [hpg_ne i hib] at hroot hfree ⊢
      have hmem := h.free_root_mem i hiT hne hroot hfree
      rcases eq_or_ne (s.pg i).order k with hk' | hk'
      · rw [hk', hfl_k]
        rw [hk'] at hmem
        exact List.mem_cons_of_mem _ hmem
      · rw [hfl_ne _ hk']
        exact hmem
  · intro p hp
    obtain ⟨ho1, ho2, ho3, ho4⟩ := h.out_ok p hp
    have hpne : p.1 ≠ idx + 2 ^ k := by
      intro heq
      rw [heq, hbfree] at ho3
      exact Bool.noConfusion ho3
    rw [hpg_ne p.1 hpne, hT3]
    exact ⟨ho1, ho2, ho3, ho4⟩
  · exact h.out_nodup


/-- The parts of an instance that the split and merge loops leave alone. -/
def SameShape (s s' : BBInstance) : Prop :=
  s'.max_order = s.max_order ∧ s'.total_pages = s.total_pages ∧
  s'.pages.length = s.pages.length ∧ s'.free_area.length = s.free_area.length ∧
  s'.free_pages_cache_list = s.free_pages_cache_list ∧
  s'.free_pages_cache_size = s.free_pages_cache_size

theorem sameShape_refl (s : BBInstance) : SameShape s s :=
  ⟨rfl, rfl, rfl, rfl, rfl, rfl⟩

theorem sameShape_trans {s1 s2 s3 : BBInstance} (h1 : SameShape s1 s2)
    (h2 : SameShape s2 s3) : SameShape s1 s3 :=
  ⟨h2.1.trans h1.1, h2.2.1.trans h1.2.1, h2.2.2.1.trans h1.2.2.1,
    h2.2.2.2.1.trans h1.2.2.2.1, h2.2.2.2.2.1.trans h1.2.2.2.2.1,
    h2.2.2.2.2.2.trans h1.2.2.2.2.2⟩

theorem bbSplit_spec : ∀ (c : Nat) (s : BBInstance) (idx target : Nat) (out : List (Nat × Nat)),
    HoleInv s idx (target + c) out →
    ∃ s', bbSplit idx target c s = (s', true) ∧ HoleInv s' idx target out ∧
      SameShape s s' := by
  intro c
  induction c with
  | zero =>
    intro s idx target out h
    exact ⟨s, rfl, by simpa using h, sameShape_refl s⟩
  | succ c ih =>
    intro s idx target out h
    have h' : HoleInv s idx ((target + c) + 1) out := h
    obtain ⟨hfree, hroot, hinv⟩ := split_step s idx (target + c) out h'
    obtain ⟨s', hrun, hinv', hsh⟩ := ih _ idx target out hinv
    refine ⟨s', ?_, hinv', ?_⟩
    · show bbSplit idx target (c + 1) s = (s', true)
      rw [bbSplit]
      simp only [hfree] at hrun
      simp only [hfree, hroot, Bool.not_false, Bool.and_self, if_true]
      exact hrun
    · refine sameShape_trans ?_ hsh
      refine ⟨by simp, by simp, by simp, by simp, by simp, by simp⟩

theorem alloc_entry (s : BBInstance) (out : List (Nat × Nat)) (K pageIdx : Nat)
    (rest : List Nat) (hinv : InstInv s out) (hfl : s.fl K = pageIdx :: rest) :
    HoleInv (((s.setFl K rest).setPg pageIdx
      { s.pg pageIdx with free := false }).setNf K (s.nf K - 1)) pageIdx K out := by
  have hmem : pageIdx ∈ s.fl K := by rw [hfl]; exact List.mem_cons_self _ _
  obtain ⟨hpT, hproot, hpfree, hpord, hKM⟩ := hinv.mem_ok K pageIdx hmem
  have hKA : K < s.free_area.length := by rw [hinv.area_len]; exact hKM
  obtain ⟨ho1, ho2, ho3, ho4⟩ := hinv.root_ok pageIdx hpT hproot
  rw [hpord] at ho1 ho2 ho3 ho4
  have hnodup := hinv.lists_nodup K
  rw [hfl] at hnodup
  have hpnotrest : pageIdx ∉ rest := (List.nodup_cons.mp hnodup).1
  set st := ((s.setFl K rest).setPg pageIdx
    { s.pg pageIdx with free := false }).setNf K (s.nf K - 1) with hst
  have hpg_ne : ∀ j, j ≠ pageIdx → st.pg j = s.pg j := by
    intro j hj
    rw [hst, setNf_pg, pg_setPg_ne _ _ (Ne.symm hj), setFl_pg]
  have hpg_p : st.pg pageIdx = { s.pg pageIdx with free := false } := by
    rw [hst, setNf_pg]
    apply pg_setPg_self
    simp only [setFl_pages]
    rw [hinv.pages_len]
    exact hpT
  have hfl_K : st.fl K = rest := by
    rw [hst, fl_setNf, setPg_fl, fl_setFl_self _ _ hKA]
  have hfl_ne : ∀ k', k' ≠ K → st.fl k' = s.fl k' := by
    intro k' hk'
    rw [hst, fl_setNf, setPg_fl, fl_setFl_ne _ _ (Ne.symm hk')]
  have hnf_K : st.nf K = s.nf K - 1 := by
    rw [hst]
    apply nf_setNf_self
    simp only [setPg_free_area, setFl_area_length]
    exact hKA
  have hnf_ne : ∀ k', k' ≠ K → st.nf k' = s.nf k' := by
    intro k' hk'
    rw [hst, nf_setNf_ne _ _ (Ne.symm hk'), setPg_nf, nf_setFl]
  have hT : st.total_pages = s.total_pages := by simp [hst]
  have hM : st.max_order = s.max_order := by simp [hst]
  have hlen : st.pages.length = s.pages.length := by simp [hst]
  have harea : st.free_area.length = s.free_area.length := by simp [hst]
  have hproot2 : (st.pg pageIdx).root = true := by rw [hpg_p]; exact hproot
  have hpfree2 : (st.pg pageIdx).free = false := by rw [hpg_p]
  have hpord2 : (st.pg pageIdx).order = K := by rw [hpg_p]; exact hpord
  refine
    { pages_len := by rw [hlen, hT]; exact hinv.pages_len
      area_len := by rw [harea, hM]; exact hinv.area_len
      max_pos := by rw [hM]; exact hinv.max_pos
      total_pos := by rw [hT]; exact hinv.total_pos
      total_align := by rw [hM, hT]; exact hinv.total_align
      hole_lt := by rw [hT]; exact hpT
      hole_root := hproot2
      hole_ord_lt := by rw [hM]; exact hKM
      hole_align := ho2
      hole_range := by rw [hT]; exact ho3
      hole_interior := ?_
      hole_not_listed := ?_
      hole_not_out := ?_
      root_ok := ?_
      cover := ?_
      lists_nodup := ?_
      nf_eq := ?_
      mem_ok := ?_
      free_root_mem := ?_
      out_ok := ?_
      out_nodup := hinv.out_nodup }
  · intro j hj1 hj2
    rw [hpg_ne j (by omega)]
    exact ho4 j hj1 hj2
  · intro k'
    rcases eq_or_ne K k' with rfl | hk'
    · rw [hfl_K]; exact hpnotrest
    · rw [hfl_ne k' (Ne.symm hk')]
      intro hmem'
      have := (hinv.mem_ok k' pageIdx hmem').2.2.2.1
      rw [hpord] at this
      exact hk' this
  · intro hmem'
    rw [List.mem_map] at hmem'
    obtain ⟨p, hp, hpe⟩ := hmem'
    have := (hinv.out_ok p hp).2.2.1
    rw [hpe, hpfree] at this
    exact Bool.noConfusion this
  · intro i hiT hne hroot
    rw [hT] at hiT
    rw [hpg_ne i hne] at hroot ⊢
    obtain ⟨hr1, hr2, hr3, hr4⟩ := hinv.root_ok i hiT hroot
    refine ⟨by rw [hM]; exact hr1, hr2, by rw [hT]; exact hr3, ?_⟩
    intro j hj1 hj2
    have hjne : j ≠ pageIdx := by
      intro heq
      subst heq
      have := (hr4 j hj1 hj2).1
      rw [hproot] at this
      exact Bool.noConfusion this
    rw [hpg_ne j hjne]
    exact hr4 j hj1 hj2
  · intro i hiT
    rw [hT] at hiT
    obtain ⟨r, hr1, hr2, hr3⟩ := hinv.cover i hiT
    rcases eq_or_ne r pageIdx with rfl | hrne
    · refine ⟨r, hr1, hproot2, ?_⟩
      rw [if_pos rfl]
      rw [hpord] at hr3
      exact hr3
    · refine ⟨r, hr1, by rw [hpg_ne r hrne]; exact hr2, ?_⟩
      rw [if_neg hrne, hpg_ne r hrne]
      exact hr3
  · intro k'
    rcases eq_or_ne K k' with rfl | hk'
    · rw [hfl_K]; exact (List.nodup_cons.mp hnodup).2
    · rw [hfl_ne k' (Ne.symm hk')]; exact hinv.lists_nodup k'
  · intro k'
    rcases eq_or_ne K k' with rfl | hk'
    · rw [hfl_K, hnf_K, hinv.nf_eq K, hfl]
      simp
    · rw [hfl_ne k' (Ne.symm hk'), hnf_ne k' (Ne.symm hk')]
      exact hinv.nf_eq k'
  · intro k' i hmem'
    have hmem2 : i ∈ s.fl k' := by
      rcases eq_or_ne K k' with rfl | hk'
      · rw [hfl_K] at hmem'
        rw [hfl]
        exact List.mem_cons_of_mem _ hmem'
      · rw [hfl_ne k' (Ne.symm hk')] at hmem'
        exact hmem'
    obtain ⟨hm1, hm2, hm3, hm4, hm5⟩ := hinv.mem_ok k' i hmem2
    have hine : i ≠ pageIdx := by
      intro heq
      subst heq
      rcases eq_or_ne K k' with rfl | hk'
      · rw [hfl_K] at hmem'
        exact hpnotrest hmem'
      · rw [hpord] at hm4
        exact hk' hm4
    rw [hpg_ne i hine, hT, hM]
    exact ⟨hm1, hm2, hm3, hm4, hm5⟩
  · intro i hiT hne hroot hfree
    rw [hT] at hiT
    rw [hpg_ne i hne] at hroot hfree ⊢
    have hmem2 := hinv.free_root_mem i hiT hroot hfree
    rcases eq_or_ne (s.pg i).order K with hk' | hk'
    · rw [hk'] at hmem2 ⊢
      rw [hfl_K]
      rw [hfl] at hmem2
      rcases List.mem_cons.mp hmem2 with heq | hm
      · exact absurd heq hne
      · exact hm
    · rw [hfl_ne _ hk']
      exact hmem2
  · intro p hp
    obtain ⟨hq1, hq2, hq3, hq4⟩ := hinv.out_ok p hp
    have hpne : p.1 ≠ pageIdx := by
      intro heq
      rw [heq, hpfree] at hq3
      exact Bool.noConfusion hq3
    rw [hpg_ne p.1 hpne, hT]
    exact ⟨hq1, hq2, hq3, hq4⟩

theorem alloc_final (s : BBInstance) (out : List (Nat × Nat)) (idx ord : Nat)
    (h : HoleInv s idx ord out) :
    InstInv (s.setPg idx { s.pg idx with order := ord, root := true, free := false })
      ((idx, ord) :: out) := by
  have hdisj := hole_disjoint s idx ord out h
  have hpos : 0 < 2 ^ ord := Nat.pos_pow_of_pos ord (by norm_num)
  set st := s.setPg idx { s.pg idx with order := ord, root := true, free := false } with hst
  have hpg_ne : ∀ j, j ≠ idx → st.pg j = s.pg j := by
    intro j hj
    rw [hst, pg_setPg_ne _ _ (Ne.symm hj)]
  have hpg_i : st.pg idx = { s.pg idx with order := ord, root := true, free := false } := by
    rw [hst]
    apply pg_setPg_self
    rw [h.pages_len]
    exact h.hole_lt
  have hroot2 : (st.pg idx).root = true := by rw [hpg_i]
  have hfree2 : (st.pg idx).free = false := by rw [hpg_i]
  have hord2 : (st.pg idx).order = ord := by rw [hpg_i]
  have hT : st.total_pages = s.total_pages := by simp [hst]
  have hM : st.max_order = s.max_order := by simp [hst]
  refine
    { pages_len := by rw [hst, setPg_pages_length, setPg_total_pages]; exact h.pages_len
      area_len := by rw [hst, setPg_free_area, setPg_max_order]; exact h.area_len
      max_pos := by rw [hM]; exact h.max_pos
      total_pos := by rw [hT]; exact h.total_pos
      total_align := by rw [hM, hT]; exact h.total_align
      root_ok := ?_
      cover := ?_
      lists_nodup := by intro k'; rw [hst, setPg_fl]; exact h.lists_nodup k'
      nf_eq := by intro k'; rw [hst, setPg_fl, setPg_nf]; exact h.nf_eq k'
      mem_ok := ?_
      free_root_mem := ?_
      out_ok := ?_
      out_nodup := ?_ }
  · intro i hiT hroot
    rw [hT] at hiT
    rcases eq_or_ne i idx with rfl | hne
    · rw [hord2]
      refine ⟨by rw [hM]; exact h.hole_ord_lt, h.hole_align, by rw [hT]; exact h.hole_range, ?_⟩
      intro j hj1 hj2
      rw [hpg_ne j (by omega)]
      exact h.hole_interior j hj1 hj2
    · rw [hpg_ne i hne] at hroot ⊢
      obtain ⟨hr1, hr2, hr3, hr4⟩ := h.root_ok i hiT hne hroot
      refine ⟨by rw [hM]; exact hr1, hr2, by rw [hT]; exact hr3, ?_⟩
      intro j hj1 hj2
      have hjne : j ≠ idx := by
        intro heq
        subst heq
        exact hdisj i hiT hne hroot j hj1 hj2 ⟨Nat.le_refl _, by omega⟩
      rw [hpg_ne j hjne]
      exact hr4 j hj1 hj2
  · intro i hiT
    rw [hT] at hiT
    obtain ⟨r, hr1, hr2, hr3⟩ := h.cover i hiT
    rcases eq_or_ne r idx with rfl | hrne
    · rw [if_pos rfl] at hr3
      refine ⟨r, hr1, hroot2, ?_⟩
      rw [hord2]
      exact hr3
    · rw [if_neg hrne] at hr3
      refine ⟨r, hr1, by rw [hpg_ne r hrne]; exact hr2, ?_⟩
      rw [hpg_ne r hrne]
      exact hr3
  · intro k' i hmem
    have hmem2 : i ∈ s.fl k' := by rw [hst, setPg_fl] at hmem; exact hmem
    obtain ⟨hm1, hm2, hm3, hm4, hm5⟩ := h.mem_ok k' i hmem2
    have hine : i ≠ idx := by
      intro heq
      subst heq
      exact h.hole_not_listed k' hmem2
    rw [hpg_ne i hine, hT, hM]
    exact ⟨hm1, hm2, hm3, hm4, hm5⟩
  · intro i hiT hroot hfree
    rw [hT] at hiT
    rcases eq_or_ne i idx with rfl | hne
    · rw [hfree2] at hfree
      exact Bool.noConfusion hfree
    · rw [hpg_ne i hne] at hroot hfree ⊢
      rw [hst, setPg_fl]
      exact h.free_root_mem i hiT hne hroot hfree
  · intro p hp
    rcases List.mem_cons.mp hp with rfl | hp'
    · rw [hT]
      exact ⟨h.hole_lt, hroot2, hfree2, hord2⟩
    · obtain ⟨hq1, hq2, hq3, hq4⟩ := h.out_ok p hp'
      have hpne : p.1 ≠ idx := by
        intro heq
        apply h.hole_not_out
        rw [← heq]
        exact List.mem_map_of_mem Prod.fst hp'
      rw [hpg_ne p.1 hpne, hT]
      exact ⟨hq1, hq2, hq3, hq4⟩
  · simp only [List.map_cons]
    refine List.nodup_cons.mpr ⟨?_, h.out_nodup⟩
    exact h.hole_not_out

theorem searchFreeArea_some (s : BBInstance) :
    ∀ fuel k j, searchFreeArea s k fuel = some j →
      k ≤ j ∧ j < k + fuel ∧ s.fl j ≠ [] := by
  intro fuel
  induction fuel with
  | zero => intro k j h; simp [searchFreeArea] at h
  | succ fuel ih =>
    intro k j h
    by_cases he : (s.fl k).isEmpty
    · rw [searchFreeArea, if_pos he] at h
      obtain ⟨h1, h2, h3⟩ := ih (k + 1) j h
      exact ⟨by omega, by omega, h3⟩
    · rw [searchFreeArea, if_neg he] at h
      cases h
      exact ⟨Nat.le_refl _, by omega, fun hc => he (List.isEmpty_iff.mpr hc)⟩

/-! ## Preservation through the coalescing loop -/

theorem div_base (m k : Nat) : m * 2 ^ (k + 1) / 2 ^ (k + 1) = m :=
  Nat.mul_div_cancel m (Nat.pos_pow_of_pos (k + 1) (by norm_num))

theorem div_base_add (m k : Nat) : (m * 2 ^ (k + 1) + 2 ^ k) / 2 ^ (k + 1) = m := by
  rw [Nat.add_comm, Nat.add_mul_div_right _ _ (Nat.pos_pow_of_pos (k + 1) (by norm_num))]
  rw [Nat.div_eq_of_lt (Nat.pow_lt_pow_succ (by norm_num))]
  simp

theorem div_pow_le {x y k m : Nat} (hkm : k ≤ m) (h : x / 2 ^ k = y / 2 ^ k) :
    x / 2 ^ m = y / 2 ^ m := by
  have hm : m = k + (m - k) := by omega
  rw [hm, pow_add, ← Nat.div_div_eq_div_mul, ← Nat.div_div_eq_div_mul, h]

theorem same_block {m r x y : Nat} (hr : 2 ^ m ∣ r) (hx1 : r ≤ x) (hx2 : x < r + 2 ^ m)
    (hdiv : x / 2 ^ m = y / 2 ^ m) : r ≤ y ∧ y < r + 2 ^ m := by
  obtain ⟨a, ha⟩ := hr
  have hpos : 0 < 2 ^ m := Nat.pos_pow_of_pos m (by norm_num)
  have hxdiv : x / 2 ^ m = a := by
    apply Nat.div_eq_of_lt_le
    · rw [Nat.mul_comm]; omega
    · rw [Nat.succ_mul, Nat.mul_comm]; omega
  have hydiv : y / 2 ^ m = a := by rw [← hdiv, hxdiv]
  constructor
  · have := Nat.div_mul_le_self y (2 ^ m)
    calc r = a * 2 ^ m := by rw [ha, Nat.mul_comm]
    _ = y / 2 ^ m * 2 ^ m := by rw [hydiv]
    _ ≤ y := Nat.div_mul_le_self y (2 ^ m)
  · have hmod := Nat.div_add_mod y (2 ^ m)
    have hlt2 : y % 2 ^ m < 2 ^ m := Nat.mod_lt y hpos
    have hstep : y < (y / 2 ^ m + 1) * 2 ^ m := by
      have hexp : (y / 2 ^ m + 1) * 2 ^ m = 2 ^ m * (y / 2 ^ m) + 2 ^ m := by ring
      omega
    calc y < (y / 2 ^ m + 1) * 2 ^ m := hstep
    _ = (a + 1) * 2 ^ m := by rw [hydiv]
    _ = r + 2 ^ m := by rw [ha]; ring

theorem aligned_lt_total {idx k T : Nat} (h1 : 2 ^ (k + 1) ∣ T) (h2 : 2 ^ (k + 1) ∣ idx)
    (h3 : idx < T) : idx + 2 ^ (k + 1) ≤ T := by
  have hd : 2 ^ (k + 1) ∣ (T - idx) := Nat.dvd_sub' h1 h2
  have hpos : 0 < T - idx := by omega
  have := Nat.le_of_dvd hpos hd
  omega

theorem buddy_div (idx k : Nat) (h : 2 ^ k ∣ idx) :
    idx / 2 ^ (k + 1) = (idx ^^^ 2 ^ k) / 2 ^ (k + 1) := by
  obtain ⟨m, hm | hm⟩ := alignedSplit idx k h
  · rw [hm, xorLow, div_base, div_base_add]
  · rw [hm, xorHigh, div_base, div_base_add]

/-- Under the hole invariant, a page that passes `__page_is_buddy`
(`FREE` with matching order field) really is the root of the buddy
block: its order field is not interior junk. -/
theorem buddy_is_root (s : BBInstance) (idx k : Nat) (out : List (Nat × Nat))
    (h : HoleInv s idx k out) (hbT : idx ^^^ 2 ^ k < s.total_pages)
    (hbord : (s.pg (idx ^^^ 2 ^ k)).order = k) :
    (s.pg (idx ^^^ 2 ^ k)).root = true := by
  set buddyIdx := idx ^^^ 2 ^ k with hbi
  by_contra hnroot
  have hnroot' : (s.pg buddyIdx).root = false := by
    cases hx : (s.pg buddyIdx).root
    · rfl
    · exact absurd hx hnroot
  obtain ⟨r, hr1, hr2, hr3⟩ := h.cover buddyIdx hbT
  have hrb : r ≠ buddyIdx := by
    intro heq
    rw [heq, hnroot'] at hr2
    exact Bool.noConfusion hr2
  have hrlt : r < buddyIdx := Nat.lt_of_le_of_ne hr1 hrb
  have hkdvd : 2 ^ k ∣ buddyIdx := by
    obtain ⟨m, hm | hm⟩ := alignedSplit idx k h.hole_align
    · rw [hbi, hm, xorLow]
      exact ⟨2 * m + 1, by ring⟩
    · rw [hbi, hm, xorHigh]
      exact ⟨2 * m, by ring⟩
  rcases eq_or_ne r idx with rfl | hrne
  · rw [if_pos rfl] at hr3
    obtain ⟨m, hm | hm⟩ := alignedSplit r k h.hole_align
    · rw [hbi, hm, xorLow] at hr3 hrlt
      omega
    · rw [hbi, hm, xorHigh] at hrlt
      omega
  · rw [if_neg hrne] at hr3
    have hrT : r < s.total_pages := by omega
    obtain ⟨hm1, hm2, hm3, hm4⟩ := h.root_ok r hrT hrne hr2
    rcases le_or_lt (s.pg r).order k with hmk | hmk
    · have hd1 : 2 ^ (s.pg r).order ∣ buddyIdx := dvd_trans (pow_dvd_pow 2 hmk) hkdvd
      have hd2 : 2 ^ (s.pg r).order ∣ (buddyIdx - r) := Nat.dvd_sub' hd1 hm2
      have := Nat.le_of_dvd (by omega) hd2
      omega
    · have hk1 : k + 1 ≤ (s.pg r).order := hmk
      have hdiv : buddyIdx / 2 ^ (s.pg r).order = idx / 2 ^ (s.pg r).order :=
        div_pow_le hk1 (by rw [← buddy_div idx k h.hole_align])
      obtain ⟨hy1, hy2⟩ := same_block hm2 hr1 hr3 hdiv
      have hine : idx ≠ r := fun heq => hrne heq.symm
      have hrlt2 : r < idx := Nat.lt_of_le_of_ne hy1 (Ne.symm hine)
      have h2 := (hm4 idx hrlt2 hy2).1
      rw [h.hole_root] at h2
      exact Bool.noConfusion h2

/-- One merging iteration of the coalescing loop: under the hole
invariant at `(idx, k)`, when the buddy passes `__page_is_buddy` the
loop unlinks it, forgets the higher root and re-establishes the hole
invariant at `(idx &&& buddy_idx, k + 1)`. -/
theorem merge_step (s : BBInstance) (idx k : Nat) (out : List (Nat × Nat))
    (h : HoleInv s idx k out) (hk2 : k + 2 ≤ s.max_order)
    (hbfree : (s.pg (idx ^^^ 2 ^ k)).free = true)
    (hbord : (s.pg (idx ^^^ 2 ^ k)).order = k) :
    idx ^^^ 2 ^ k < s.total_pages ∧
    HoleInv
      (((s.setFl k ((s.fl k).erase (idx ^^^ 2 ^ k))).setNf k
          ((s.setFl k ((s.fl k).erase (idx ^^^ 2 ^ k))).nf k - 1)).setPg
        (max (idx ^^^ 2 ^ k) idx)
        { ((s.setFl k ((s.fl k).erase (idx ^^^ 2 ^ k))).setNf k
            ((s.setFl k ((s.fl k).erase (idx ^^^ 2 ^ k))).nf k - 1)).pg
            (max (idx ^^^ 2 ^ k) idx) with root := false, free := true })
      (idx &&& (idx ^^^ 2 ^ k)) (k + 1) out := by
  have hpos : 0 < 2 ^ k := Nat.pos_pow_of_pos k (by norm_num)
  have hpow : 2 ^ k + 2 ^ k = 2 ^ (k + 1) := by rw [Nat.pow_succ]; ring
  set buddyIdx := idx ^^^ 2 ^ k with hbi
  obtain ⟨m, hm⟩ := alignedSplit idx k h.hole_align
  set base := m * 2 ^ (k + 1) with hbase
  have hcase : (idx = base ∧ buddyIdx = base + 2 ^ k) ∨
      (idx = base + 2 ^ k ∧ buddyIdx = base) := by
    rcases hm with hm | hm
    · exact Or.inl ⟨hm, by rw [hbi, hm, xorLow]⟩
    · exact Or.inr ⟨hm, by rw [hbi, hm, xorHigh]⟩
  have hnew : idx &&& buddyIdx = base := by
    rcases hcase with ⟨h1, h2⟩ | ⟨h1, h2⟩
    · rw [h1, h2]; exact andBuddy k m
    · rw [h1, h2, Nat.land_comm]; exact andBuddy k m
  have hforgot : max buddyIdx idx = base + 2 ^ k := by
    rcases hcase with ⟨h1, h2⟩ | ⟨h1, h2⟩
    · rw [h1, h2]; exact Nat.max_eq_left (by omega)
    · rw [h1, h2]; exact Nat.max_eq_right (by omega)
  have hdvdT : 2 ^ (k + 1) ∣ s.total_pages := by
    refine dvd_trans (pow_dvd_pow 2 ?_) h.total_align
    omega
  have hbase_dvd : 2 ^ (k + 1) ∣ base := ⟨m, by rw [hbase]; ring⟩
  have hbase_le : base ≤ idx := by
    rcases hcase with ⟨h1, -⟩ | ⟨h1, -⟩ <;> omega
  have hbaseT : base < s.total_pages := by
    have := h.hole_lt
    omega
  have hrange : base + 2 ^ (k + 1) ≤ s.total_pages := by
    rcases hcase with ⟨h1, -⟩ | ⟨h1, -⟩
    · exact aligned_lt_total hdvdT (h1 ▸ hbase_dvd) (h1 ▸ h.hole_lt)
    · have := h.hole_range
      omega
  have hbT : buddyIdx < s.total_pages := by
    rcases hcase with ⟨-, h2⟩ | ⟨-, h2⟩ <;> omega
  have hbroot : (s.pg buddyIdx).root = true := buddy_is_root s idx k out h hbT hbord
  have hbne : buddyIdx ≠ idx := by
    rcases hcase with ⟨h1, h2⟩ | ⟨h1, h2⟩ <;> omega
  have hbmem : buddyIdx ∈ s.fl k := by
    have := h.free_root_mem buddyIdx hbT hbne hbroot hbfree
    rw [hbord] at this
    exact this
  obtain ⟨hb1, hb2, hb3, hb4⟩ := h.root_ok buddyIdx hbT hbne hbroot
  rw [hbord] at hb1 hb2 hb3 hb4
  have hbase_root : (s.pg base).root = true := by
    rcases hcase with ⟨h1, h2⟩ | ⟨h1, h2⟩
    · rw [← h1]; exact h.hole_root
    · rw [← h2]; exact hbroot
  have hup_root : (s.pg (base + 2 ^ k)).root = true := by
    rcases hcase with ⟨h1, h2⟩ | ⟨h1, h2⟩
    · rw [← h2]; exact hbroot
    · rw [← h1]; exact h.hole_root
  have hlow_int : ∀ j, base < j → j < base + 2 ^ k →
      (s.pg j).root = false ∧ (s.pg j).free = true := by
    intro j hj1 hj2
    rcases hcase with ⟨h1, h2⟩ | ⟨h1, h2⟩
    · exact h.hole_interior j (by omega) (by omega)
    · exact hb4 j (by omega) (by omega)
  have hup_int : ∀ j, base + 2 ^ k < j → j < base + 2 ^ (k + 1) →
      (s.pg j).root = false ∧ (s.pg j).free = true := by
    intro j hj1 hj2
    rcases hcase with ⟨h1, h2⟩ | ⟨h1, h2⟩
    · exact hb4 j (by omega) (by omega)
    · exact h.hole_interior j (by omega) (by omega)
  have hnot_both : ∀ i, i ≠ base → i ≠ base + 2 ^ k → i ≠ idx ∧ i ≠ buddyIdx := by
    intro i hi1 hi2
    rcases hcase with ⟨h1, h2⟩ | ⟨h1, h2⟩
    · exact ⟨h1 ▸ hi1, h2 ▸ hi2⟩
    · exact ⟨h1 ▸ hi2, h2 ▸ hi1⟩
  have hbase_not_out : base ∉ out.map Prod.fst := by
    rcases hcase with ⟨h1, h2⟩ | ⟨h1, h2⟩
    · rw [← h1]; exact h.hole_not_out
    · rw [← h2]
      intro hmem
      rw [List.mem_map] at hmem
      obtain ⟨q, hq, hqe⟩ := hmem
      have := (h.out_ok q hq).2.2.1
      rw [hqe, hbfree] at this
      exact Bool.noConfusion this
  have hforgot_not_out : base + 2 ^ k ∉ out.map Prod.fst := by
    rcases hcase with ⟨h1, h2⟩ | ⟨h1, h2⟩
    · rw [← h2]
      intro hmem
      rw [List.mem_map] at hmem
      obtain ⟨q, hq, hqe⟩ := hmem
      have := (h.out_ok q hq).2.2.1
      rw [hqe, hbfree] at this
      exact Bool.noConfusion this
    · rw [← h1]; exact h.hole_not_out
  have hidx_range : base ≤ idx ∧ idx + 2 ^ k ≤ base + 2 ^ (k + 1) := by
    rcases hcase with ⟨h1, -⟩ | ⟨h1, -⟩ <;> omega
  have hbud_range : base ≤ buddyIdx ∧ buddyIdx + 2 ^ k ≤ base + 2 ^ (k + 1) := by
    rcases hcase with ⟨-, h2⟩ | ⟨-, h2⟩ <;> omega
  have hkA : k < s.free_area.length := by
    rw [h.area_len]; omega
  refine ⟨hbT, ?_⟩
  rw [hnew, hforgot]
  set s2 := (s.setFl k ((s.fl k).erase buddyIdx)).setNf k
    ((s.setFl k ((s.fl k).erase buddyIdx)).nf k - 1) with hs2
  have hpg2 : ∀ j, s2.pg j = s.pg j := by
    intro j
    rw [hs2, setNf_pg, setFl_pg]
  set st := s2.setPg (base + 2 ^ k) { s2.pg (base + 2 ^ k) with root := false, free := true }
    with hst
  have hpg_ne : ∀ j, j ≠ base + 2 ^ k → st.pg j = s.pg j := by
    intro j hj
    rw [hst, pg_setPg_ne _ _ (Ne.symm hj), hpg2]
  have hpg_f : st.pg (base + 2 ^ k) =
      { s.pg (base + 2 ^ k) with root := false, free := true } := by
    rw [hst, hpg2]
    apply pg_setPg_self
    rw [hs2, setNf_pages, setFl_pages, h.pages_len]
    omega
  have hfroot : (st.pg (base + 2 ^ k)).root = false := by rw [hpg_f]
  have hffree : (st.pg (base + 2 ^ k)).free = true := by rw [hpg_f]
  have hfl_k : st.fl k = (s.fl k).erase buddyIdx := by
    rw [hst, setPg_fl, hs2, fl_setNf, fl_setFl_self _ _ hkA]
  have hfl_ne : ∀ k', k' ≠ k → st.fl k' = s.fl k' := by
    intro k' hk'
    rw [hst, setPg_fl, hs2, fl_setNf, fl_setFl_ne _ _ (Ne.symm hk')]
  have hnf_k : st.nf k = s.nf k - 1 := by
    rw [hst, setPg_nf, hs2, nf_setNf_self _ _ (by simpa using hkA), nf_setFl]
  have hnf_ne : ∀ k', k' ≠ k → st.nf k' = s.nf k' := by
    intro k' hk'
    rw [hst, setPg_nf, hs2, nf_setNf_ne _ _ (Ne.symm hk'), nf_setFl]
  have hT : st.total_pages = s.total_pages := by simp [hst, hs2]
  have hM : st.max_order = s.max_order := by simp [hst, hs2]
  have hlen : st.pages.length = s.pages.length := by simp [hst, hs2]
  have harea : st.free_area.length = s.free_area.length := by simp [hst, hs2]
  have hroot_st : ∀ i, i ≠ base + 2 ^ k → (st.pg i).root = (s.pg i).root := by
    intro i hi
    rw [hpg_ne i hi]
  refine
    { pages_len := by rw [hlen, hT]; exact h.pages_len
      area_len := by rw [harea, hM]; exact h.area_len
      max_pos := by rw [hM]; exact h.max_pos
      total_pos := by rw [hT]; exact h.total_pos
      total_align := by rw [hM, hT]; exact h.total_align
      hole_lt := by rw [hT]; exact hbaseT
      hole_root := by
        rw [hpg_ne base (by omega)]
        exact hbase_root
      hole_ord_lt := by rw [hM]; omega
      hole_align := hbase_dvd
      hole_range := by rw [hT]; exact hrange
      hole_interior := ?_
      hole_not_listed := ?_
      hole_not_out := hbase_not_out
      root_ok := ?_
      cover := ?_
      lists_nodup := ?_
      nf_eq := ?_
      mem_ok := ?_
      free_root_mem := ?_
      out_ok := ?_
      out_nodup := h.out_nodup }
  · intro j hj1 hj2
    rcases eq_or_ne j (base + 2 ^ k) with rfl | hj
    · exact ⟨hfroot, hffree⟩
    · rw [hpg_ne j hj]
      rcases Nat.lt_or_ge j (base + 2 ^ k) with hlt | hge
      · exact hlow_int j hj1 hlt
      · exact hup_int j (by omega) hj2
  · intro k'
    rcases eq_or_ne k k' with rfl | hk'
    · rw [hfl_k]
      intro hmem
      have hmem2 := List.mem_of_mem_erase hmem
      rcases hcase with ⟨h1, h2⟩ | ⟨h1, h2⟩
      · rw [← h1] at hmem2
        exact h.hole_not_listed k hmem2
      · rw [← h2] at hmem
        exact (List.Nodup.not_mem_erase (h.lists_nodup k)) hmem
    · rw [hfl_ne k' (Ne.symm hk')]
      intro hmem
      have hko := (h.mem_ok k' base hmem).2.2.2.1
      rcases hcase with ⟨h1, h2⟩ | ⟨h1, h2⟩
      · rw [← h1] at hmem
        exact h.hole_not_listed k' hmem
      · rw [← h2, hbord] at hko
        exact hk' hko
  · intro i hiT hne hroot
    rw [hT] at hiT
    have hif : i ≠ base + 2 ^ k := by
      intro heq
      rw [heq, hfroot] at hroot
      exact Bool.noConfusion hroot
    rw [hpg_ne i hif] at hroot ⊢
    obtain ⟨hni, hnb⟩ := hnot_both i hne hif
    obtain ⟨hr1, hr2, hr3, hr4⟩ := h.root_ok i hiT hni hroot
    refine ⟨by rw [hM]; exact hr1, hr2, by rw [hT]; exact hr3, ?_⟩
    intro j hj1 hj2
    have hjf : j ≠ base + 2 ^ k := by
      intro heq
      have := (hr4 j hj1 hj2).1
      rw [heq, hup_root] at this
      exact Bool.noConfusion this
    rw [hpg_ne j hjf]
    exact hr4 j hj1 hj2
  · intro i hiT
    rw [hT] at hiT
    obtain ⟨r, hr1, hr2, hr3⟩ := h.cover i hiT
    have hbase_root_st : (st.pg base).root = true := by
      rw [hpg_ne base (by omega)]
      exact hbase_root
    rcases eq_or_ne r idx with rfl | hrne
    · rw [if_pos rfl] at hr3
      refine ⟨base, by omega, hbase_root_st, ?_⟩
      rw [if_pos rfl]
      omega
    · rw [if_neg hrne] at hr3
      rcases eq_or_ne r buddyIdx with rfl | hrnb
      · rw [hbord] at hr3
        refine ⟨base, by omega, hbase_root_st, ?_⟩
        rw [if_pos rfl]
        omega
      · have hrb2 : r ≠ base + 2 ^ k := by
          intro heq
          rcases hcase with ⟨h1, h2⟩ | ⟨h1, h2⟩
          · exact hrnb (heq.trans h2.symm)
          · exact hrne (heq.trans h1.symm)
        have hrbase : r ≠ base := by
          intro heq
          rcases hcase with ⟨h1, h2⟩ | ⟨h1, h2⟩
          · exact hrne (heq.trans h1.symm)
          · exact hrnb (heq.trans h2.symm)
        refine ⟨r, hr1, by rw [hpg_ne r hrb2]; exact hr2, ?_⟩
        rw [if_neg hrbase, hpg_ne r hrb2]
        exact hr3
  · intro k'
    rcases eq_or_ne k k' with rfl | hk'
    · rw [hfl_k]
      exact List.Nodup.erase _ (h.lists_nodup k)
    · rw [hfl_ne k' (Ne.symm hk')]
      exact h.lists_nodup k'
  · intro k'
    rcases eq_or_ne k k' with rfl | hk'
    · rw [hfl_k, hnf_k, h.nf_eq k, List.length_erase_of_mem hbmem]
    · rw [hfl_ne k' (Ne.symm hk'), hnf_ne k' (Ne.symm hk')]
      exact h.nf_eq k'
  · intro k' i hmem
    have hmem2 : i ∈ s.fl k' := by
      rcases eq_or_ne k k' with rfl | hk'
      · rw [hfl_k] at hmem
        exact List.mem_of_mem_erase hmem
      · rw [hfl_ne k' (Ne.symm hk')] at hmem
        exact hmem
    obtain ⟨hm1, hm2, hm3, hm4, hm5⟩ := h.mem_ok k' i hmem2
    have hib : i ≠ buddyIdx := by
      rcases eq_or_ne k k' with rfl | hk'
      · rw [hfl_k] at hmem
        intro heq
        rw [heq] at hmem
        exact (List.Nodup.not_mem_erase (h.lists_nodup k)) hmem
      · intro heq
        rw [heq, hbord] at hm4
        exact hk' hm4
    have hii : i ≠ idx := by
      intro heq
      rw [heq] at hmem2
      exact h.hole_not_listed k' hmem2
    have hif : i ≠ base + 2 ^ k := by
      intro heq
      rcases hcase with ⟨h1, h2⟩ | ⟨h1, h2⟩
      · exact hib (heq.trans h2.symm)
      · exact hii (heq.trans h1.symm)
    rw [hpg_ne i hif, hT, hM]
    exact ⟨hm1, hm2, hm3, hm4, hm5⟩
  · intro i hiT hne hroot hfree
    rw [hT] at hiT
    have hif : i ≠ base + 2 ^ k := by
      intro heq
      rw [heq, hfroot] at hroot
      exact Bool.noConfusion hroot
    rw [hpg_ne i hif] at hroot hfree ⊢
    obtain ⟨hii, hib⟩ := hnot_both i hne hif
    have hmem := h.free_root_mem i hiT hii hroot hfree
    rcases eq_or_ne (s.pg i).order k with hk' | hk'
    · rw [hk'] at hmem ⊢
      rw [hfl_k]
      exact (List.mem_erase_of_ne hib).mpr hmem
    · rw [hfl_ne _ hk']
      exact hmem
  · intro q hq
    obtain ⟨hq1, hq2, hq3, hq4⟩ := h.out_ok q hq
    have hqf : q.1 ≠ base + 2 ^ k := by
      intro heq
      apply hforgot_not_out
      rw [← heq]
      exact List.mem_map_of_mem Prod.fst hq
    rw [hpg_ne q.1 hqf, hT]
    exact ⟨hq1, hq2, hq3, hq4⟩

/-- The buddy index probed by the coalescing loop is always in range
(so the out-of-range `return` of `bb_free_pages` is dead code on
invariant-holding states). -/
theorem buddy_lt_total (s : BBInstance) (idx k : Nat) (out : List (Nat × Nat))
    (h : HoleInv s idx k out) (hk2 : k + 2 ≤ s.max_order) :
    idx ^^^ 2 ^ k < s.total_pages := by
  have hpos : 0 < 2 ^ k := Nat.pos_pow_of_pos k (by norm_num)
  have hpow : 2 ^ k + 2 ^ k = 2 ^ (k + 1) := by rw [Nat.pow_succ]; ring
  obtain ⟨m, hm⟩ := alignedSplit idx k h.hole_align
  have hdvdT : 2 ^ (k + 1) ∣ s.total_pages := by
    refine dvd_trans (pow_dvd_pow 2 ?_) h.total_align
    omega
  rcases hm with hm | hm
  · rw [hm, xorLow]
    have hdvd : 2 ^ (k + 1) ∣ m * 2 ^ (k + 1) := ⟨m, by ring⟩
    have := aligned_lt_total hdvdT hdvd (hm ▸ h.hole_lt)
    omega
  · rw [hm, xorHigh]
    have := h.hole_lt
    omega

theorem bbMerge_spec : ∀ (fuel idx k : Nat) (s : BBInstance) (out : List (Nat × Nat)),
    HoleInv s idx k out → k + fuel + 1 = s.max_order →
    ∃ s1 ci co, bbMerge idx k fuel s = (s1, some (ci, co)) ∧
      HoleInv s1 ci co out ∧ SameShape s s1 := by
  intro fuel
  induction fuel with
  | zero =>
    intro idx k s out h hfuel
    exact ⟨s, idx, k, rfl, h, sameShape_refl s⟩
  | succ fuel ih =>
    intro idx k s out h hfuel
    have hk2 : k + 2 ≤ s.max_order := by omega
    have hbT := buddy_lt_total s idx k out h hk2
    rw [bbMerge]
    rw [if_neg (Nat.not_le.mpr hbT)]
    cases hcond : ((s.pg (idx ^^^ 2 ^ k)).free && ((s.pg (idx ^^^ 2 ^ k)).order == k)) with
    | false =>
      refine ⟨s, idx, k, ?_, h, sameShape_refl s⟩
      simp only []
      rw [hcond]
      simp
    | true =>
      simp only []
      rw [hcond]
      simp only [if_pos]
      rw [Bool.and_eq_true] at hcond
      have hbfree : (s.pg (idx ^^^ 2 ^ k)).free = true := hcond.1
      have hbord : (s.pg (idx ^^^ 2 ^ k)).order = k := by
        simpa using hcond.2
      obtain ⟨-, hstep⟩ := merge_step s idx k out h hk2 hbfree hbord
      have hM : (((s.setFl k ((s.fl k).erase (idx ^^^ 2 ^ k))).setNf k
          ((s.setFl k ((s.fl k).erase (idx ^^^ 2 ^ k))).nf k - 1)).setPg
          (max (idx ^^^ 2 ^ k) idx)
          { ((s.setFl k ((s.fl k).erase (idx ^^^ 2 ^ k))).setNf k
              ((s.setFl k ((s.fl k).erase (idx ^^^ 2 ^ k))).nf k - 1)).pg
              (max (idx ^^^ 2 ^ k) idx) with
            root := false, free := true }).max_order = s.max_order := by
        simp
      obtain ⟨s1, ci, co, hrun, hinv1, hsh⟩ :=
        ih (idx &&& (idx ^^^ 2 ^ k)) (k + 1) _ out hstep (by rw [hM]; omega)
      refine ⟨s1, ci, co, hrun, hinv1, ?_⟩
      · refine sameShape_trans ?_ hsh
        exact ⟨by simp, by simp, by simp, by simp, by simp, by simp⟩

/-- Installing the coalesced block at the end of `bb_free_pages`:
set `FREE|ROOT` and the reached order on the hole root, push it onto the
free list of that order and bump `nr_free`. -/
theorem merge_install (s : BBInstance) (out : List (Nat × Nat)) (ci co : Nat)
    (h : HoleInv s ci co out) :
    InstInv
      ((((s.setPg ci { s.pg ci with order := co, root := true, free := true }).setFl co
          (ci :: (s.setPg ci { s.pg ci with order := co, root := true, free := true }).fl co)).setNf co
          (((s.setPg ci { s.pg ci with order := co, root := true, free := true }).setFl co
            (ci :: (s.setPg ci { s.pg ci with order := co, root := true, free := true }).fl co)).nf co + 1)))
      out := by
  have hdisj := hole_disjoint s ci co out h
  have hpos : 0 < 2 ^ co := Nat.pos_pow_of_pos co (by norm_num)
  have hcoA : co < s.free_area.length := by rw [h.area_len]; exact h.hole_ord_lt
  set p2 := s.setPg ci { s.pg ci with order := co, root := true, free := true } with hp2
  set st := (p2.setFl co (ci :: p2.fl co)).setNf co
    ((p2.setFl co (ci :: p2.fl co)).nf co + 1) with hst
  have hpg_ne : ∀ j, j ≠ ci → st.pg j = s.pg j := by
    intro j hj
    rw [hst, setNf_pg, setFl_pg, hp2, pg_setPg_ne _ _ (Ne.symm hj)]
  have hpg_ci : st.pg ci = { s.pg ci with order := co, root := true, free := true } := by
    rw [hst, setNf_pg, setFl_pg, hp2]
    apply pg_setPg_self
    rw [h.pages_len]
    exact h.hole_lt
  have hroot2 : (st.pg ci).root = true := by rw [hpg_ci]
  have hfree2 : (st.pg ci).free = true := by rw [hpg_ci]
  have hord2 : (st.pg ci).order = co := by rw [hpg_ci]
  have hflp2 : p2.fl co = s.fl co := by rw [hp2, setPg_fl]
  have hfl_co : st.fl co = ci :: s.fl co := by
    rw [hst, fl_setNf, fl_setFl_self, hflp2]
    rw [hp2, setPg_free_area]
    exact hcoA
  have hfl_ne : ∀ k', k' ≠ co → st.fl k' = s.fl k' := by
    intro k' hk'
    rw [hst, fl_setNf, fl_setFl_ne _ _ (Ne.symm hk'), hp2, setPg_fl]
  have hnf_co : st.nf co = s.nf co + 1 := by
    rw [hst, nf_setNf_self, nf_setFl, hp2, setPg_nf]
    rw [setFl_area_length, hp2, setPg_free_area]
    exact hcoA
  have hnf_ne : ∀ k', k' ≠ co → st.nf k' = s.nf k' := by
    intro k' hk'
    rw [hst, nf_setNf_ne _ _ (Ne.symm hk'), nf_setFl, hp2, setPg_nf]
  have hT : st.total_pages = s.total_pages := by simp [hst, hp2]
  have hM : st.max_order = s.max_order := by simp [hst, hp2]
  have hlen : st.pages.length = s.pages.length := by simp [hst, hp2]
  have harea : st.free_area.length = s.free_area.length := by simp [hst, hp2]
  refine
    { pages_len := by rw [hlen, hT]; exact h.pages_len
      area_len := by rw [harea, hM]; exact h.area_len
      max_pos := by rw [hM]; exact h.max_pos
      total_pos := by rw [hT]; exact h.total_pos
      total_align := by rw [hM, hT]; exact h.total_align
      root_ok := ?_
      cover := ?_
      lists_nodup := ?_
      nf_eq := ?_
      mem_ok := ?_
      free_root_mem := ?_
      out_ok := ?_
      out_nodup := h.out_nodup }
  · intro i hiT hroot
    rw [hT] at hiT
    rcases eq_or_ne i ci with rfl | hne
    · rw [hord2]
      refine ⟨by rw [hM]; exact h.hole_ord_lt, h.hole_align, by rw [hT]; exact h.hole_range, ?_⟩
      intro j hj1 hj2
      rw [hpg_ne j (by omega)]
      exact h.hole_interior j hj1 hj2
    · rw [hpg_ne i hne] at hroot ⊢
      obtain ⟨hr1, hr2, hr3, hr4⟩ := h.root_ok i hiT hne hroot
      refine ⟨by rw [hM]; exact hr1, hr2, by rw [hT]; exact hr3, ?_⟩
      intro j hj1 hj2
      have hjne : j ≠ ci := by
        intro heq
        subst heq
        exact hdisj i hiT hne hroot j hj1 hj2 ⟨Nat.le_refl _, by omega⟩
      rw [hpg_ne j hjne]
      exact hr4 j hj1 hj2
  · intro i hiT
    rw [hT] at hiT
    obtain ⟨r, hr1, hr2, hr3⟩ := h.cover i hiT
    rcases eq_or_ne r ci with rfl | hrne
    · rw [if_pos rfl] at hr3
      refine ⟨r, hr1, hroot2, ?_⟩
      rw [hord2]
      exact hr3
    · rw [if_neg hrne] at hr3
      refine ⟨r, hr1, by rw [hpg_ne r hrne]; exact hr2, ?_⟩
      rw [hpg_ne r hrne]
      exact hr3
  · intro k'
    rcases eq_or_ne co k' with rfl | hk'
    · rw [hfl_co]
      exact List.nodup_cons.mpr ⟨h.hole_not_listed co, h.lists_nodup co⟩
    · rw [hfl_ne k' (Ne.symm hk')]
      exact h.lists_nodup k'
  · intro k'
    rcases eq_or_ne co k' with rfl | hk'
    · rw [hfl_co, hnf_co, h.nf_eq co]
      simp
    · rw [hfl_ne k' (Ne.symm hk'), hnf_ne k' (Ne.symm hk')]
      exact h.nf_eq k'
  · intro k' i hmem
    rcases eq_or_ne co k' with rfl | hk'
    · rw [hfl_co] at hmem
      rcases List.mem_cons.mp hmem with rfl | hmem'
      · rw [hT, hM]
        exact ⟨h.hole_lt, hroot2, hfree2, hord2, h.hole_ord_lt⟩
      · obtain ⟨hm1, hm2, hm3, hm4, hm5⟩ := h.mem_ok co i hmem'
        have hine : i ≠ ci := fun heq => h.hole_not_listed co (heq ▸ hmem')
        rw [hpg_ne i hine, hT, hM]
        exact ⟨hm1, hm2, hm3, hm4, hm5⟩
    · rw [hfl_ne k' (Ne.symm hk')] at hmem
      obtain ⟨hm1, hm2, hm3, hm4, hm5⟩ := h.mem_ok k' i hmem
      have hine : i ≠ ci := fun heq => h.hole_not_listed k' (heq ▸ hmem)
      rw [hpg_ne i hine, hT, hM]
      exact ⟨hm1, hm2, hm3, hm4, hm5⟩
  · intro i hiT hroot hfree
    rw [hT] at hiT
    rcases eq_or_ne i ci with rfl | hne
    · rw [hord2, hfl_co]
      exact List.mem_cons_self _ _
    · rw [hpg_ne i hne] at hroot hfree ⊢
      have hmem := h.free_root_mem i hiT hne hroot hfree
      rcases eq_or_ne (s.pg i).order co with hk' | hk'
      · rw [hk', hfl_co]
        rw [hk'] at hmem
        exact List.mem_cons_of_mem _ hmem
      · rw [hfl_ne _ hk']
        exact hmem
  · intro q hq
    obtain ⟨hq1, hq2, hq3, hq4⟩ := h.out_ok q hq
    have hqne : q.1 ≠ ci := by
      intro heq
      apply h.hole_not_out
      rw [← heq]
      exact List.mem_map_of_mem Prod.fst hq
    rw [hpg_ne q.1 hqne, hT]
    exact ⟨hq1, hq2, hq3, hq4⟩

/-- Entering `bb_free_pages` with an outstanding block `(idx, kk)`:
after the reject checks pass, the block becomes the hole of the
coalescing loop. -/
theorem free_entry (s : BBInstance) (out : List (Nat × Nat)) (idx kk : Nat)
    (hinv : InstInv s ((idx, kk) :: out)) : HoleInv s idx kk out := by
  obtain ⟨hoT0, horoot0, hofree0, hoord0⟩ := hinv.out_ok (idx, kk) (List.mem_cons_self _ _)
  have hoT : idx < s.total_pages := hoT0
  have horoot : (s.pg idx).root = true := horoot0
  have hofree : (s.pg idx).free = false := hofree0
  have hoord : (s.pg idx).order = kk := hoord0
  obtain ⟨hr1, hr2, hr3, hr4⟩ := hinv.root_ok idx hoT horoot
  rw [hoord] at hr1 hr2 hr3 hr4
  have hnodup := hinv.out_nodup
  simp only [List.map_cons, List.nodup_cons] at hnodup
  refine
    { pages_len := hinv.pages_len
      area_len := hinv.area_len
      max_pos := hinv.max_pos
      total_pos := hinv.total_pos
      total_align := hinv.total_align
      hole_lt := hoT
      hole_root := horoot
      hole_ord_lt := hr1
      hole_align := hr2
      hole_range := hr3
      hole_interior := hr4
      hole_not_listed := ?_
      hole_not_out := hnodup.1
      root_ok := fun i hiT _ hroot => hinv.root_ok i hiT hroot
      cover := ?_
      lists_nodup := hinv.lists_nodup
      nf_eq := hinv.nf_eq
      mem_ok := hinv.mem_ok
      free_root_mem := fun i hiT _ hroot hfree => hinv.free_root_mem i hiT hroot hfree
      out_ok := fun p hp => hinv.out_ok p (List.mem_cons_of_mem _ hp)
      out_nodup := hnodup.2 }
  · intro k' hmem
    have := (hinv.mem_ok k' idx hmem).2.2.1
    rw [hofree] at this
    exact Bool.noConfusion this
  · intro i hiT
    obtain ⟨r, hra, hrb, hrc⟩ := hinv.cover i hiT
    refine ⟨r, hra, hrb, ?_⟩
    rcases eq_or_ne r idx with rfl | hrne
    · rw [if_pos rfl, ← hoord]
      exact hrc
    · rw [if_neg hrne]
      exact hrc

/-- The full behaviour of `bb_free_pages` on an outstanding block: the
checks pass, the coalescing loop runs, and the invariant is restored
with the block removed from the outstanding list. -/
theorem bb_free_spec (s : BBInstance) (out : List (Nat × Nat)) (idx kk : Nat)
    (hinv : InstInv s ((idx, kk) :: out)) :
    InstInv (bb_free_pages s idx) out ∧ SameShape s (bb_free_pages s idx) := by
  obtain ⟨hoT0, horoot0, hofree0, hoord0⟩ := hinv.out_ok (idx, kk) (List.mem_cons_self _ _)
  have hoT : idx < s.total_pages := hoT0
  have horoot : (s.pg idx).root = true := horoot0
  have hofree : (s.pg idx).free = false := hofree0
  have hoord : (s.pg idx).order = kk := hoord0
  have hhole := free_entry s out idx kk hinv
  have hkkM : kk < s.max_order := hhole.hole_ord_lt
  obtain ⟨s1, ci, co, hrun, hinv1, hsh⟩ :=
    bbMerge_spec (s.max_order - 1 - kk) idx kk s out hhole (by have := hinv.max_pos; omega)
  have hinst := merge_install s1 out ci co hinv1
  have hcompute : bb_free_pages s idx =
      (((s1.setPg ci { s1.pg ci with order := co, root := true, free := true }).setFl co
        (ci :: (s1.setPg ci { s1.pg ci with order := co, root := true, free := true }).fl co)).setNf co
        (((s1.setPg ci { s1.pg ci with order := co, root := true, free := true }).setFl co
          (ci :: (s1.setPg ci { s1.pg ci with order := co, root := true, free := true }).fl co)).nf co + 1)) := by
    rw [bb_free_pages, if_neg (Nat.not_le.mpr hoT)]
    simp only []
    rw [hofree]
    simp only [Bool.false_eq_true, if_false]
    rw [horoot]
    simp only [Bool.not_true, Bool.false_eq_true, if_false]
    rw [hoord, hrun]
  rw [hcompute]
  refine ⟨hinst, ?_⟩
  refine sameShape_trans hsh ?_
  exact ⟨by simp, by simp, by simp, by simp, by simp, by simp⟩

/-! ## The invariant at init -/

theorem installMaxBlocks_shape (ord bs : Nat) :
    ∀ n start s, SameShape s (installMaxBlocks ord bs start n s) := by
  intro n
  induction n with
  | zero => intro start s; exact sameShape_refl s
  | succ n ih =>
    intro start s
    rw [installMaxBlocks]
    refine sameShape_trans ?_ (ih (start + bs) _)
    exact ⟨by simp, by simp, by simp, by simp, by simp, by simp⟩

theorem installMaxBlocks_pg (ord bs : Nat) (hbs : 0 < bs) :
    ∀ n start s, start + n * bs ≤ s.pages.length →
    ∀ i, (installMaxBlocks ord bs start n s).pg i =
      if ∃ j, j < n ∧ i = start + j * bs then
        { s.pg i with root := true, order := ord } else s.pg i := by
  intro n
  induction n with
  | zero =>
    intro start s hlen i
    rw [installMaxBlocks]
    rw [if_neg]
    rintro ⟨j, hj, -⟩
    omega
  | succ n ih =>
    intro start s hlen i
    rw [installMaxBlocks]
    have hstart_lt : start < s.pages.length := by
      have : 1 * bs ≤ (n + 1) * bs := Nat.mul_le_mul_right bs (by omega)
      omega
    set s3 := ((s.setPg start { s.pg start with order := ord, root := true }).setFl ord
      ((s.setPg start { s.pg start with order := ord, root := true }).fl ord ++ [start])).setNf ord
      (((s.setPg start { s.pg start with order := ord, root := true }).setFl ord
        ((s.setPg start { s.pg start with order := ord, root := true }).fl ord ++ [start])).nf ord + 1)
      with hs3
    have hpg3 : ∀ i', s3.pg i' = if i' = start
        then { s.pg start with root := true, order := ord } else s.pg i' := by
      intro i'
      rcases eq_or_ne i' start with rfl | hne
      · rw [if_pos rfl, hs3, setNf_pg, setFl_pg, pg_setPg_self _ _ hstart_lt]
      · rw [if_neg hne, hs3, setNf_pg, setFl_pg, pg_setPg_ne _ _ (Ne.symm hne)]
    have hlen3 : s3.pages.length = s.pages.length := by simp [hs3]
    have hlen' : start + bs + n * bs ≤ s3.pages.length := by
      rw [hlen3]
      have hmul : (n + 1) * bs = bs + n * bs := by ring
      omega
    rw [ih (start + bs) s3 hlen' i]
    rcases eq_or_ne i start with rfl | hne
    · have hnotex : ¬∃ j, j < n ∧ i = i + bs + j * bs := by
        rintro ⟨j, hj1, hj2⟩
        omega
      rw [if_neg hnotex, hpg3 i, if_pos rfl, if_pos ⟨0, by omega, by simp⟩]
    · have hcond : (∃ j, j < n ∧ i = start + bs + j * bs) ↔
          (∃ j, j < n + 1 ∧ i = start + j * bs) := by
        constructor
        · rintro ⟨j, hj1, hj2⟩
          exact ⟨j + 1, by omega, by rw [hj2]; ring⟩
        · rintro ⟨j, hj1, hj2⟩
          match j with
          | 0 => exact absurd (by simpa using hj2) hne
          | j + 1 => exact ⟨j, by omega, by rw [hj2]; ring⟩
      by_cases hc : ∃ j, j < n + 1 ∧ i = start + j * bs
      · rw [if_pos (hcond.mpr hc), if_pos hc, hpg3 i, if_neg hne]
      · rw [if_neg (fun hx => hc (hcond.mp hx)), if_neg hc, hpg3 i, if_neg hne]

theorem installMaxBlocks_fl (ord bs : Nat) :
    ∀ n start s, ord < s.free_area.length →
    (installMaxBlocks ord bs start n s).fl ord =
        s.fl ord ++ (List.range n).map (fun j => start + j * bs) ∧
    (∀ k', k' ≠ ord → (installMaxBlocks ord bs start n s).fl k' = s.fl k') ∧
    (installMaxBlocks ord bs start n s).nf ord = s.nf ord + n ∧
    (∀ k', k' ≠ ord → (installMaxBlocks ord bs start n s).nf k' = s.nf k') := by
  intro n
  induction n with
  | zero =>
    intro start s hord
    rw [installMaxBlocks]
    exact ⟨by simp, fun _ _ => rfl, rfl, fun _ _ => rfl⟩
  | succ n ih =>
    intro start s hord
    rw [installMaxBlocks]
    set s1 := s.setPg start { s.pg start with order := ord, root := true } with hs1
    set s3 := (s1.setFl ord (s1.fl ord ++ [start])).setNf ord
      ((s1.setFl ord (s1.fl ord ++ [start])).nf ord + 1) with hs3
    have hordA : ord < s3.free_area.length := by simpa [hs3, hs1] using hord
    obtain ⟨hf1, hf2, hf3, hf4⟩ := ih (start + bs) s3 hordA
    have hfl3 : s3.fl ord = s.fl ord ++ [start] := by
      rw [hs3, fl_setNf, fl_setFl_self, hs1, setPg_fl]
      rw [hs1, setPg_free_area]
      exact hord
    have hfl3ne : ∀ k', k' ≠ ord → s3.fl k' = s.fl k' := by
      intro k' hk'
      rw [hs3, fl_setNf, fl_setFl_ne _ _ (Ne.symm hk'), hs1, setPg_fl]
    have hnf3 : s3.nf ord = s.nf ord + 1 := by
      rw [hs3, nf_setNf_self, nf_setFl, hs1, setPg_nf]
      rw [setFl_area_length, hs1, setPg_free_area]
      exact hord
    have hnf3ne : ∀ k', k' ≠ ord → s3.nf k' = s.nf k' := by
      intro k' hk'
      rw [hs3, nf_setNf_ne _ _ (Ne.symm hk'), nf_setFl, hs1, setPg_nf]
    have hrange : (List.range (n + 1)).map (fun j => start + j * bs) =
        start :: (List.range n).map (fun j => start + bs + j * bs) := by
      rw [List.range_succ_eq_map, List.map_cons, List.map_map]
      congr 1
      · simp
      · apply List.map_congr_left
        intro j hj
        simp [Nat.succ_mul]
        ring
    refine ⟨?_, ?_, ?_, ?_⟩
    · rw [hf1, hfl3, hrange]
      simp
    · intro k' hk'
      rw [hf2 k' hk', hfl3ne k' hk']
    · rw [hf3, hnf3]
      omega
    · intro k' hk'
      rw [hf4 k' hk', hnf3ne k' hk']

theorem getD_replicate_ite {α : Type} (n i : Nat) (a d : α) :
    (List.replicate n a).getD i d = if i < n then a else d := by
  rw [List.getD_eq_getElem?_getD, List.getElem?_replicate]
  split <;> simp

/-- A successful `buddy_system_init` establishes the instance invariant
with no outstanding blocks, and fully determines the headline fields. -/
theorem buddy_system_init_inv (M T : Nat) (hM : 1 ≤ M) (s : BBInstance)
    (hinit : buddy_system_init M T = some s) :
    InstInv s [] ∧ s.max_order = M ∧ s.total_pages = T ∧
    s.free_pages_cache_list = [] ∧ s.free_pages_cache_size = 0 := by
  rw [buddy_system_init] at hinit
  by_cases hT0 : T = 0
  · rw [if_pos (by simpa using hT0)] at hinit
    exact absurd hinit (by simp)
  rw [if_neg (by simpa using hT0)] at hinit
  set bs := 2 ^ (M - 1) with hbs
  have hbspos : 0 < bs := Nat.pos_pow_of_pos (M - 1) (by norm_num)
  set nblocks := T / bs with hnb
  set s0 : BBInstance :=
    { max_order := M
      total_pages := T
      pages := List.replicate T { free := true, root := false, order := 0 }
      free_area := List.replicate M { free_list := [], nr_free := 0 }
      free_pages_cache_list := []
      free_pages_cache_size := 0 } with hs0
  by_cases hal : nblocks * bs = T
  · rw [if_pos (by simpa using hal)] at hinit
    simp only [Option.some.injEq] at hinit
    subst hinit
    have hpg0 : ∀ i, s0.pg i =
        if i < T then ⟨true, false, 0⟩ else ⟨false, false, 0⟩ := by
      intro i
      rw [hs0]
      show (List.replicate T ({ free := true, root := false, order := 0 } : BBPage)).getD i _ =
        _
      rw [getD_replicate_ite]
    have hfl0 : ∀ k, s0.fl k = [] := by
      intro k
      show ((List.replicate M ({ free_list := [], nr_free := 0 } : FreeArea)).getD k
        ⟨[], 0⟩).free_list = []
      rw [getD_replicate_ite]
      split <;> rfl
    have hnf0 : ∀ k, s0.nf k = 0 := by
      intro k
      show ((List.replicate M ({ free_list := [], nr_free := 0 } : FreeArea)).getD k
        ⟨[], 0⟩).nr_free = 0
      rw [getD_replicate_ite]
      split <;> rfl
    have hlen0 : s0.pages.length = T := by rw [hs0]; simp
    have harea0 : s0.free_area.length = M := by rw [hs0]; simp
    set sF := installMaxBlocks (M - 1) bs 0 nblocks s0 with hsF
    have hsh := installMaxBlocks_shape (M - 1) bs nblocks 0 s0
    obtain ⟨hshM, hshT, hshL, hshA, hshC1, hshC2⟩ := hsh
    have hMF : sF.max_order = M := by rw [hshM, hs0]
    have hTF : sF.total_pages = T := by rw [hshT, hs0]
    have hLF : sF.pages.length = T := by rw [hshL, hlen0]
    have hAF : sF.free_area.length = M := by rw [hshA, harea0]
    have hpg := installMaxBlocks_pg (M - 1) bs hbspos nblocks 0 s0
      (by rw [hlen0]; omega)
    have hTle : ∀ q, q < nblocks → q * bs + bs ≤ T := by
      intro q hq
      have h1 : (q + 1) * bs ≤ nblocks * bs := Nat.mul_le_mul_right bs (by omega)
      have h2 : (q + 1) * bs = q * bs + bs := by ring
      omega
    have hq_of_lt : ∀ q, q * bs < T → q < nblocks := by
      intro q hlt
      by_contra hge
      push_neg at hge
      have h1 : nblocks * bs ≤ q * bs := Nat.mul_le_mul_right bs hge
      omega
    have hdvd_iff : ∀ i, 2 ^ (M - 1) ∣ i ↔ ∃ q, i = q * bs := by
      intro i
      constructor
      · rintro ⟨q, hq⟩
        exact ⟨q, by rw [hq, hbs]; ring⟩
      · rintro ⟨q, hq⟩
        exact ⟨q, by rw [hq, hbs]; ring⟩
    have hpgF : ∀ i, i < T → sF.pg i =
        if 2 ^ (M - 1) ∣ i then ⟨true, true, M - 1⟩ else ⟨true, false, 0⟩ := by
      intro i hiT
      rw [hsF, hpg i]
      by_cases hdvd : 2 ^ (M - 1) ∣ i
      · obtain ⟨q, hq⟩ := (hdvd_iff i).mp hdvd
        have hqlt : q < nblocks := hq_of_lt q (by omega)
        rw [if_pos ⟨q, hqlt, by omega⟩, if_pos hdvd, hpg0 i, if_pos hiT]
      · rw [if_neg, if_neg hdvd, hpg0 i, if_pos hiT]
        rintro ⟨j, hj1, hj2⟩
        exact hdvd ((hdvd_iff i).mpr ⟨j, by omega⟩)
    obtain ⟨hflF, hflFne, hnfF, hnfFne⟩ :=
      installMaxBlocks_fl (M - 1) bs nblocks 0 s0 (by rw [harea0]; omega)
    have hflFe : sF.fl (M - 1) = (List.range nblocks).map (fun j => 0 + j * bs) := by
      rw [hsF, hflF, hfl0]
      simp
    have hflFne' : ∀ k', k' ≠ M - 1 → sF.fl k' = [] := by
      intro k' hk'
      rw [hsF, hflFne k' hk', hfl0]
    have hnfFe : sF.nf (M - 1) = nblocks := by
      rw [hsF, hnfF, hnf0]
      omega
    have hnfFne' : ∀ k', k' ≠ M - 1 → sF.nf k' = 0 := by
      intro k' hk'
      rw [hsF, hnfFne k' hk', hnf0]
    have hmemF : ∀ i, i ∈ sF.fl (M - 1) ↔ ∃ j, j < nblocks ∧ i = j * bs := by
      intro i
      rw [hflFe, List.mem_map]
      constructor
      · rintro ⟨j, hj, hje⟩
        exact ⟨j, List.mem_range.mp hj, by omega⟩
      · rintro ⟨j, hj, hje⟩
        exact ⟨j, List.mem_range.mpr hj, by omega⟩
    refine ⟨?_, hMF, hTF, by rw [hshC1, hs0], by rw [hshC2, hs0]⟩
    have hrootF : ∀ i, i < T → ((sF.pg i).root = true ↔ 2 ^ (M - 1) ∣ i) := by
      intro i hiT
      rw [hpgF i hiT]
      by_cases hdvd : 2 ^ (M - 1) ∣ i
      · rw [if_pos hdvd]
        simp [hdvd]
      · rw [if_neg hdvd]
        simp [hdvd]
    refine
      { pages_len := by rw [hLF, hTF]
        area_len := by rw [hAF, hMF]
        max_pos := by rw [hMF]; exact hM
        total_pos := by rw [hTF]; omega
        total_align := by rw [hMF, hTF]; exact ⟨nblocks, by rw [← hal]; ring⟩
        root_ok := ?_
        cover := ?_
        lists_nodup := ?_
        nf_eq := ?_
        mem_ok := ?_
        free_root_mem := ?_
        out_ok := by intro p hp; cases hp
        out_nodup := List.nodup_nil }
    · intro i hiT hroot
      rw [hTF] at hiT
      have hdvd := (hrootF i hiT).mp hroot
      have hord : (sF.pg i).order = M - 1 := by
        rw [hpgF i hiT, if_pos hdvd]
      rw [hord, hMF, hTF]
      obtain ⟨q, hq⟩ := (hdvd_iff i).mp hdvd
      have hqlt : q < nblocks := hq_of_lt q (by omega)
      have hle := hTle q hqlt
      refine ⟨by omega, hdvd, by rw [← hbs]; omega, ?_⟩
      intro j hj1 hj2
      rw [← hbs] at hj2
      have hjT : j < T := by omega
      have hjnd : ¬ 2 ^ (M - 1) ∣ j := by
        intro hd
        obtain ⟨q', hq'⟩ := (hdvd_iff j).mp hd
        have hqq : q < q' := by
          by_contra hle2
          push_neg at hle2
          have := Nat.mul_le_mul_right bs hle2
          omega
        have hstep := Nat.mul_le_mul_right bs (show q + 1 ≤ q' by omega)
        have heq2 : (q + 1) * bs = q * bs + bs := by ring
        omega
      rw [hpgF j hjT, if_neg hjnd]
      exact ⟨rfl, rfl⟩
    · intro i hiT
      rw [hTF] at hiT
      set r := i / bs * bs with hr
      have hrle : r ≤ i := Nat.div_mul_le_self i bs
      have hilt : i < r + bs := by
        have h1 := Nat.div_add_mod i bs
        have h2 := Nat.mod_lt i hbspos
        have h3 : bs * (i / bs) = i / bs * bs := Nat.mul_comm bs (i / bs)
        omega
      have hrdvd : 2 ^ (M - 1) ∣ r := (hdvd_iff r).mpr ⟨i / bs, rfl⟩
      have hrT : r < T := by omega
      refine ⟨r, hrle, (hrootF r hrT).mpr hrdvd, ?_⟩
      have hord : (sF.pg r).order = M - 1 := by
        rw [hpgF r hrT, if_pos hrdvd]
      rw [hord, ← hbs]
      omega
    · intro k
      rcases eq_or_ne k (M - 1) with rfl | hk
      · rw [hflFe]
        refine List.Nodup.map ?_ (List.nodup_range nblocks)
        intro a b hab
        have haw : a * bs = b * bs := by simpa using hab
        exact Nat.eq_of_mul_eq_mul_right hbspos haw
      · rw [hflFne' k hk]
        exact List.nodup_nil
    · intro k
      rcases eq_or_ne k (M - 1) with rfl | hk
      · rw [hflFe, hnfFe]
        simp
      · rw [hflFne' k hk, hnfFne' k hk]
        rfl
    · intro k i hmem
      rcases eq_or_ne k (M - 1) with rfl | hk
      · obtain ⟨j, hj, hje⟩ := (hmemF i).mp hmem
        have hle := hTle j hj
        have hiT : i < T := by omega
        have hdvd : 2 ^ (M - 1) ∣ i := (hdvd_iff i).mpr ⟨j, hje⟩
        rw [hTF, hMF, hpgF i hiT, if_pos hdvd]
        exact ⟨hiT, rfl, rfl, rfl, by omega⟩
      · rw [hflFne' k hk] at hmem
        cases hmem
    · intro i hiT hroot hfree
      rw [hTF] at hiT
      have hdvd := (hrootF i hiT).mp hroot
      have hord : (sF.pg i).order = M - 1 := by
        rw [hpgF i hiT, if_pos hdvd]
      rw [hord]
      obtain ⟨q, hq⟩ := (hdvd_iff i).mp hdvd
      have hqlt : q < nblocks := hq_of_lt q (by omega)
      exact (hmemF i).mpr ⟨q, hqlt, hq⟩
  · rw [if_neg (by simpa using hal)] at hinit
    exact absurd hinit (by simp)

/-- The full behaviour of `bb_alloc_pages` on an invariant-holding
instance: either it fails leaving the state untouched — exactly when the
order is out of range or all free lists at order and above are empty — or
it succeeds, preserving the invariant with the returned block added to
the outstanding list, and the returned root is order-aligned. -/
theorem bb_alloc_cases (s : BBInstance) (out : List (Nat × Nat)) (order : Nat)
    (hinv : InstInv s out) :
    ((bb_alloc_pages s order).1 = none ∧ (bb_alloc_pages s order).2 = s ∧
      (s.max_order ≤ order ∨ ∀ k, order ≤ k → k < s.max_order → s.fl k = [])) ∨
    (∃ idx, (bb_alloc_pages s order).1 = some idx ∧
      InstInv (bb_alloc_pages s order).2 ((idx, order) :: out) ∧
      2 ^ order ∣ idx ∧ idx < s.total_pages ∧ order < s.max_order ∧
      (bb_alloc_pages s order).2.pg idx = ⟨false, true, order⟩ ∧
      (∀ k, idx ∉ (bb_alloc_pages s order).2.fl k) ∧
      SameShape s (bb_alloc_pages s order).2) := by
  by_cases hord : s.max_order ≤ order
  · left
    rw [bb_alloc_pages, if_pos hord]
    exact ⟨rfl, rfl, Or.inl hord⟩
  · have hordlt : order < s.max_order := Nat.lt_of_not_le hord
    cases hsearch : searchFreeArea s order (s.max_order - order) with
    | none =>
      left
      rw [bb_alloc_pages, if_neg hord, hsearch]
      refine ⟨rfl, rfl, Or.inr ?_⟩
      intro k hk1 hk2
      exact (searchFreeArea_none s (s.max_order - order) order).mp hsearch k hk1 (by omega)
    | some K =>
      obtain ⟨hK1, hK2, hK3⟩ := searchFreeArea_some s _ order K hsearch
      have hKM : K < s.max_order := by omega
      cases hflK : s.fl K with
      | nil => exact absurd hflK hK3
      | cons pageIdx rest =>
        right
        have hmemhd : pageIdx ∈ s.fl K := by rw [hflK]; exact List.mem_cons_self _ _
        obtain ⟨hpT, hproot, hpfree, hpord, -⟩ := hinv.mem_ok K pageIdx hmemhd
        have hnfK : s.nf K = rest.length + 1 := by
          rw [hinv.nf_eq K, hflK]
          simp
        have hentry := alloc_entry s out K pageIdx rest hinv hflK
        have hKeq : order + (K - order) = K := Nat.add_sub_cancel' hK1
        have hentry2 : HoleInv (((s.setFl K rest).setPg pageIdx
            { s.pg pageIdx with free := false }).setNf K (s.nf K - 1))
            pageIdx (order + (K - order)) out := by
          rw [hKeq]
          exact hentry
        obtain ⟨s4, hrun, hinv4, hsh4⟩ :=
          bbSplit_spec (K - order) _ pageIdx order out hentry2
        have hnf2 : ((s.setFl K rest).setPg pageIdx
            { s.pg pageIdx with free := false }).nf K = s.nf K := by
          simp
        have hcompute : bb_alloc_pages s order =
            (some pageIdx, s4.setPg pageIdx
              { s4.pg pageIdx with order := order, root := true, free := false }) := by
          rw [bb_alloc_pages, if_neg hord]
          split
          · next heq =>
            rw [hsearch] at heq
            cases heq
          · next k heq =>
            rw [hsearch] at heq
            injection heq with heqK
            subst heqK
            split
            · next heq2 =>
              rw [hflK] at heq2
              cases heq2
            · next pi rst heq2 =>
              rw [hflK] at heq2
              injection heq2 with he1 he2
              subst he1
              subst he2
              rw [if_neg (by rw [hproot]; simp)]
              rw [if_neg (by rw [hnf2, hnfK]; simp)]
              rw [hnf2]
              simp only [] at hrun ⊢
              rw [hrun]
        refine ⟨pageIdx, by rw [hcompute], ?_, hinv4.hole_align, hpT, hordlt, ?_, ?_, ?_⟩
        · rw [hcompute]
          exact alloc_final s4 out pageIdx order hinv4
        · rw [hcompute]
          show (s4.setPg pageIdx _).pg pageIdx = _
          rw [pg_setPg_self]
          rw [hinv4.pages_len]
          exact hinv4.hole_lt
        · intro k
          rw [hcompute]
          show pageIdx ∉ (s4.setPg pageIdx _).fl k
          rw [setPg_fl]
          exact hinv4.hole_not_listed k
        · rw [hcompute]
          have h1 : SameShape s (((s.setFl K rest).setPg pageIdx
              { s.pg pageIdx with free := false }).setNf K (s.nf K - 1)) :=
            ⟨by simp, by simp, by simp, by simp, by simp, by simp⟩
          have h2 : SameShape s4 (s4.setPg pageIdx
              { s4.pg pageIdx with order := order, root := true, free := false }) :=
            ⟨by simp, by simp, by simp, by simp, by simp, by simp⟩
          exact sameShape_trans (sameShape_trans h1 hsh4) h2


/-! ## System-level preservation -/

theorem InstInv_perm {s : BBInstance} {out out' : List (Nat × Nat)}
    (hperm : List.Perm out out') (h : InstInv s out) : InstInv s out' :=
  { pages_len := h.pages_len
    area_len := h.area_len
    max_pos := h.max_pos
    total_pos := h.total_pos
    total_align := h.total_align
    root_ok := h.root_ok
    cover := h.cover
    lists_nodup := h.lists_nodup
    nf_eq := h.nf_eq
    mem_ok := h.mem_ok
    free_root_mem := h.free_root_mem
    out_ok := fun p hp => h.out_ok p (hperm.mem_iff.mpr hp)
    out_nodup := ((hperm.map Prod.fst).nodup_iff).mp h.out_nodup }

theorem InstInv_cache_update (s : BBInstance) (l : List (Option Nat)) (n : Nat)
    (out : List (Nat × Nat)) (h : InstInv s out) :
    InstInv { s with free_pages_cache_list := l, free_pages_cache_size := n } out :=
  { pages_len := h.pages_len
    area_len := h.area_len
    max_pos := h.max_pos
    total_pos := h.total_pos
    total_align := h.total_align
    root_ok := h.root_ok
    cover := h.cover
    lists_nodup := h.lists_nodup
    nf_eq := h.nf_eq
    mem_ok := h.mem_ok
    free_root_mem := h.free_root_mem
    out_ok := h.out_ok
    out_nodup := h.out_nodup }

theorem cache_extend_succ (c : Nat) (s : BBInstance) :
    cache_extend (c + 1) s = cache_extend c
      { (bb_alloc_pages s 0).2 with
        free_pages_cache_list :=
          (bb_alloc_pages s 0).1 :: (bb_alloc_pages s 0).2.free_pages_cache_list
        free_pages_cache_size := (bb_alloc_pages s 0).2.free_pages_cache_size + 1 } := by
  rw [cache_extend]

theorem bbSplit_cache : ∀ (c pageIdx target : Nat) (s : BBInstance),
    (bbSplit pageIdx target c s).1.free_pages_cache_list = s.free_pages_cache_list ∧
    (bbSplit pageIdx target c s).1.free_pages_cache_size = s.free_pages_cache_size := by
  intro c
  induction c with
  | zero => intro pageIdx target s; exact ⟨rfl, rfl⟩
  | succ c ih =>
    intro pageIdx target s
    rw [bbSplit]
    split
    · obtain ⟨h1, h2⟩ := ih pageIdx target _
      rw [h1, h2]
      exact ⟨by simp, by simp⟩
    · exact ⟨rfl, rfl⟩

theorem bb_alloc_cache (s : BBInstance) (order : Nat) :
    (bb_alloc_pages s order).2.free_pages_cache_list = s.free_pages_cache_list ∧
    (bb_alloc_pages s order).2.free_pages_cache_size = s.free_pages_cache_size := by
  rw [bb_alloc_pages]
  split
  · exact ⟨rfl, rfl⟩
  · split
    · exact ⟨rfl, rfl⟩
    · split
      · exact ⟨rfl, rfl⟩
      · simp only []
        split
        · exact ⟨by simp, by simp⟩
        · split
          · exact ⟨by simp, by simp⟩
          · split
            · next s4 heq =>
              have hfst : s4 = (bbSplit _ _ _ _).1 := (congrArg Prod.fst heq).symm
              refine ⟨?_, ?_⟩
              · show s4.free_pages_cache_list = _
                rw [hfst, (bbSplit_cache _ _ _ _).1]
                simp
              · show s4.free_pages_cache_size = _
                rw [hfst, (bbSplit_cache _ _ _ _).2]
                simp
            · next s4 heq =>
              have hfst : s4 = (bbSplit _ _ _ _).1 := (congrArg Prod.fst heq).symm
              refine ⟨?_, ?_⟩
              · show (s4.setPg _ _).free_pages_cache_list = _
                rw [setPg_cache_list, hfst, (bbSplit_cache _ _ _ _).1]
                simp
              · show (s4.setPg _ _).free_pages_cache_size = _
                rw [setPg_cache_size, hfst, (bbSplit_cache _ _ _ _).2]
                simp

theorem cache_extend_mem : ∀ (c : Nat) (s : BBInstance) (e : Option Nat),
    e ∈ s.free_pages_cache_list → e ∈ (cache_extend c s).free_pages_cache_list := by
  intro c
  induction c with
  | zero => intro s e he; exact he
  | succ c ih =>
    intro s e he
    rw [cache_extend_succ]
    apply ih
    apply List.mem_cons_of_mem
    rw [(bb_alloc_cache s 0).1]
    exact he

theorem middle_perm (x : Nat × Nat) (A B C : List (Nat × Nat)) :
    List.Perm (x :: (A ++ B ++ C)) (A ++ (x :: B) ++ C) := by
  have h1 : x :: (A ++ B ++ C) = x :: (A ++ (B ++ C)) := by rw [List.append_assoc]
  have h2 : A ++ (x :: B) ++ C = A ++ (x :: (B ++ C)) := by
    rw [List.append_assoc, List.cons_append]
  rw [h1, h2]
  exact List.perm_middle.symm

theorem cache_extend_inv : ∀ (c : Nat) (s : BBInstance) (A C : List (Nat × Nat)),
    InstInv s (A ++ cachePairs s ++ C) →
    (∃ e ∈ (cache_extend c s).free_pages_cache_list, e = none) ∨
      (InstInv (cache_extend c s) (A ++ cachePairs (cache_extend c s) ++ C) ∧
        (cache_extend c s).max_order = s.max_order ∧
        (cache_extend c s).total_pages = s.total_pages ∧
        (∀ e ∈ (cache_extend c s).free_pages_cache_list,
          e ∈ s.free_pages_cache_list ∨ e.isSome)) := by
  intro c
  induction c with
  | zero =>
    intro s A C h
    exact Or.inr ⟨h, rfl, rfl, fun e he => Or.inl he⟩
  | succ c ih =>
    intro s A C h
    rw [cache_extend_succ]
    rcases bb_alloc_cases s (A ++ cachePairs s ++ C) 0 h with
      ⟨hr, hs, -⟩ | ⟨idx, hr, hinv1, -, -, -, -, -, hsh⟩
    · left
      refine ⟨none, ?_, rfl⟩
      apply cache_extend_mem
      rw [hr, hs]
      exact List.mem_cons_self _ _
    · obtain ⟨hshM, hshT, -, -, hshcl, hshcs⟩ := hsh
      rw [hr]
      set s1 := (bb_alloc_pages s 0).2 with hs1
      set s2 : BBInstance := { s1 with
        free_pages_cache_list := some idx :: s1.free_pages_cache_list
        free_pages_cache_size := s1.free_pages_cache_size + 1 } with hs2
      have hcp1 : cachePairs s1 = cachePairs s := by
        unfold cachePairs
        rw [hshcl]
      have hcp2 : cachePairs s2 = (idx, 0) :: cachePairs s := by
        have h1 : cachePairs s2 = (idx, 0) :: cachePairs s1 := rfl
        rw [h1, hcp1]
      have hinv2 : InstInv s2 (A ++ cachePairs s2 ++ C) := by
        rw [hcp2]
        refine InstInv_perm (middle_perm (idx, 0) A (cachePairs s) C) ?_
        exact InstInv_cache_update s1 _ _ _ hinv1
      rcases ih s2 A C hinv2 with hleft | ⟨hI, hM2, hT2, hmem2⟩
      · left
        exact hleft
      · right
        refine ⟨hI, by rw [hM2, hs2]; simpa using hshM,
          by rw [hT2, hs2]; simpa using hshT, ?_⟩
        intro e he
        rcases hmem2 e he with hmem3 | hsome
        · rw [hs2] at hmem3
          rcases List.mem_cons.mp hmem3 with rfl | hmem4
          · exact Or.inr rfl
          · rw [hs1] at hmem4
            rw [hshcl] at hmem4
            exact Or.inl hmem4
        · exact Or.inr hsome

theorem end_perm (x : Nat × Nat) (A B C : List (Nat × Nat)) :
    List.Perm (x :: (A ++ B ++ C)) (A ++ B ++ (x :: C)) :=
  List.perm_middle.symm

theorem cache_shrink_inv : ∀ (c : Nat) (s : BBInstance) (A C : List (Nat × Nat)),
    InstInv s (A ++ cachePairs s ++ C) →
    (∀ e ∈ s.free_pages_cache_list, e.isSome) →
    InstInv (cache_shrink c s) (A ++ cachePairs (cache_shrink c s) ++ C) ∧
      ∀ e ∈ (cache_shrink c s).free_pages_cache_list, e ∈ s.free_pages_cache_list := by
  intro c
  induction c with
  | zero => intro s A C h hsome; exact ⟨h, fun e he => he⟩
  | succ c ih =>
    intro s A C h hsome
    rw [cache_shrink]
    split
    · next hl =>
      have h1 : InstInv { s with free_pages_cache_size := s.free_pages_cache_size - 1 }
          (A ++ cachePairs { s with
            free_pages_cache_size := s.free_pages_cache_size - 1 } ++ C) :=
        InstInv_cache_update s s.free_pages_cache_list _ _ h
      obtain ⟨h2, h3⟩ := ih _ A C h1 (fun e he => hsome e he)
      exact ⟨h2, fun e he => h3 e he⟩
    · next e rest hl =>
      obtain ⟨i, rfl⟩ : ∃ i, e = some i := by
        have hm := hsome e (by rw [hl]; exact List.mem_cons_self _ _)
        cases e with
        | none => cases hm
        | some i => exact ⟨i, rfl⟩
      simp only []
      set s1 : BBInstance := { s with free_pages_cache_list := rest } with hs1
      set s2 : BBInstance := bb_free_pages s1 i with hs2
      set s3 : BBInstance :=
        { s2 with free_pages_cache_size := s2.free_pages_cache_size - 1 } with hs3
      have hcp : cachePairs s = (i, 0) :: cachePairs s1 := by
        unfold cachePairs
        rw [hl]
        rfl
      rw [hcp] at h
      have hinv1 : InstInv s1 ((i, 0) :: (A ++ cachePairs s1 ++ C)) :=
        InstInv_cache_update s rest s.free_pages_cache_size _
          (InstInv_perm (middle_perm (i, 0) A (cachePairs s1) C).symm h)
      obtain ⟨hinv2, hsh⟩ := bb_free_spec s1 (A ++ cachePairs s1 ++ C) i 0 hinv1
      have hshl : s2.free_pages_cache_list = s1.free_pages_cache_list := hsh.2.2.2.2.1
      have hcp2 : cachePairs s3 = cachePairs s1 := by
        unfold cachePairs
        rw [show s3.free_pages_cache_list = s2.free_pages_cache_list from rfl, hshl]
      have hinv3 : InstInv s3 (A ++ cachePairs s3 ++ C) := by
        rw [hcp2]
        exact InstInv_cache_update s2 s2.free_pages_cache_list _ _ hinv2
      have hmemrest : ∀ e' ∈ s3.free_pages_cache_list, e' ∈ rest := by
        intro e' he'
        have he2 : e' ∈ s2.free_pages_cache_list := he'
        rw [hshl] at he2
        exact he2
      obtain ⟨h2, h3⟩ := ih s3 A C hinv3 (fun e' he' =>
        hsome e' (by rw [hl]; exact List.mem_cons_of_mem _ (hmemrest e' he')))
      refine ⟨h2, fun e' he' => ?_⟩
      rw [hl]
      exact List.mem_cons_of_mem _ (hmemrest e' (h3 e' he'))

theorem cached_alloc_inv (s : BBInstance) (A C : List (Nat × Nat))
    (h : InstInv s (A ++ cachePairs s ++ C))
    (hok : cachedAllocOk s = true) :
    ∃ i, (cached_alloc s).1 = some i ∧
      InstInv (cached_alloc s).2 (A ++ cachePairs (cached_alloc s).2 ++ ((i, 0) :: C)) ∧
      ∀ e ∈ (cached_alloc s).2.free_pages_cache_list, e.isSome := by
  rw [cachedAllocOk, Bool.and_eq_true] at hok
  obtain ⟨hok1, hok2⟩ := hok
  rw [List.all_eq_true] at hok2
  set s1 : BBInstance :=
    (if s.free_pages_cache_size < LOW_WATERMARK_LEVEL then
      cache_extend (MID_WATERMARK_LEVEL - s.free_pages_cache_size) s
    else s) with hs1
  have hceq : cached_alloc s = (match s1.free_pages_cache_list with
      | [] => (none, s1)
      | e :: rest => (e, { s1 with free_pages_cache_list := rest })) := rfl
  cases hls : s1.free_pages_cache_list with
  | nil =>
    exfalso
    rw [hceq, hls] at hok1
    exact Bool.noConfusion hok1
  | cons e rest =>
    obtain ⟨i, rfl⟩ : ∃ i, e = some i := by
      rw [hceq, hls] at hok1
      cases e with
      | none => exact Bool.noConfusion hok1
      | some i => exact ⟨i, rfl⟩
    have hrest : ∀ e' ∈ rest, Option.isSome e' = true := by
      intro e' he'
      apply hok2
      rw [hceq, hls]
      exact he'
    have hinv1 : InstInv s1 (A ++ cachePairs s1 ++ C) := by
      by_cases hlt : s.free_pages_cache_size < LOW_WATERMARK_LEVEL
      · rw [if_pos hlt] at hs1
        rcases cache_extend_inv (MID_WATERMARK_LEVEL - s.free_pages_cache_size) s A C h with
          ⟨en, hen, rfl⟩ | ⟨hI, -, -, -⟩
        · exfalso
          rw [← hs1, hls] at hen
          rcases List.mem_cons.mp hen with heq | hen2
          · exact Option.noConfusion heq
          · exact Bool.noConfusion (hrest none hen2)
        · rw [hs1]
          exact hI
      · rw [if_neg hlt] at hs1
        rw [hs1]
        exact h
    have hcp : cachePairs s1 = (i, 0) :: cachePairs { s1 with free_pages_cache_list := rest } := by
      unfold cachePairs
      rw [hls]
      rfl
    rw [hcp] at hinv1
    have hinv2 : InstInv { s1 with free_pages_cache_list := rest }
        (A ++ cachePairs { s1 with free_pages_cache_list := rest } ++ ((i, 0) :: C)) :=
      InstInv_cache_update s1 rest s1.free_pages_cache_size _
        (InstInv_perm ((middle_perm (i, 0) A _ C).symm.trans (end_perm (i, 0) A _ C)) hinv1)
    refine ⟨i, ?_, ?_, ?_⟩
    · rw [hceq, hls]
    · rw [hceq, hls]
      exact hinv2
    · intro e' he'
      rw [hceq, hls] at he'
      exact hrest e' he'

theorem cached_free_inv (s : BBInstance) (idx : Nat) (A C : List (Nat × Nat))
    (h : InstInv s (A ++ cachePairs s ++ ((idx, 0) :: C)))
    (hsome : ∀ e ∈ s.free_pages_cache_list, e.isSome) :
    InstInv (cached_free s idx) (A ++ cachePairs (cached_free s idx) ++ C) ∧
      ∀ e ∈ (cached_free s idx).free_pages_cache_list, e.isSome := by
  set s1 : BBInstance :=
    { s with free_pages_cache_list := some idx :: s.free_pages_cache_list } with hs1
  have hcp : cachePairs s1 = (idx, 0) :: cachePairs s := rfl
  have hinv1 : InstInv s1 (A ++ cachePairs s1 ++ C) := by
    rw [hcp]
    refine InstInv_cache_update s _ s.free_pages_cache_size _ ?_
    exact InstInv_perm ((end_perm (idx, 0) A (cachePairs s) C).symm.trans
      (middle_perm (idx, 0) A (cachePairs s) C)) h
  have hsome1 : ∀ e ∈ s1.free_pages_cache_list, e.isSome = true := by
    intro e he
    rcases List.mem_cons.mp he with rfl | he2
    · rfl
    · exact hsome e he2
  have hceq : cached_free s idx =
      (if HIGH_WATERMARK_LEVEL < s1.free_pages_cache_size then
        cache_shrink (s1.free_pages_cache_size - MID_WATERMARK_LEVEL) s1
      else s1) := rfl
  rw [hceq]
  split
  · obtain ⟨h2, h3⟩ := cache_shrink_inv (s1.free_pages_cache_size - MID_WATERMARK_LEVEL)
      s1 A C hinv1 hsome1
    exact ⟨h2, fun e he => hsome1 e (h3 e he)⟩
  · exact ⟨hinv1, hsome1⟩

theorem perm_cons_erase_pair {p : Nat × Nat} : ∀ {l : List (Nat × Nat)}, p ∈ l →
    List.Perm l (p :: l.erase p) := by
  intro l
  induction l with
  | nil => intro h; cases h
  | cons q l ih =>
    intro h
    by_cases hq : (q == p) = true
    · have he : (q :: l).erase p = l := by
        rw [List.erase_cons, if_pos hq]
      have hqp : q = p := by simpa using hq
      rw [he, hqp]
    · have he : (q :: l).erase p = q :: l.erase p := by
        rw [List.erase_cons, if_neg hq]
      rw [he]
      have hp : p ∈ l := by
        rcases List.mem_cons.mp h with rfl | h2
        · simp at hq
        · exact h2
      exact ((ih hp).cons q).trans (List.Perm.swap p q (l.erase p))

theorem applyOp_inv (st : SysState) (op : BBOp) (h : SysInv st) : SysInv (applyOp st op) := by
  cases op with
  | alloc order =>
    have happ : applyOp st (.alloc order) = { st with
        inst := (bb_alloc_pages st.inst order).2
        allocated := match (bb_alloc_pages st.inst order).1 with
          | some j => (j, order) :: st.allocated
          | none => st.allocated } := rfl
    rcases bb_alloc_cases st.inst (outs st) order h.1 with
      ⟨hr, hs, -⟩ | ⟨i, hr, hinv1, -, -, -, -, -, hsh⟩
    · rw [happ, hr, hs]
      exact h
    · rw [happ, hr]
      have hcl : (bb_alloc_pages st.inst order).2.free_pages_cache_list =
          st.inst.free_pages_cache_list := hsh.2.2.2.2.1
      have hcp : cachePairs (bb_alloc_pages st.inst order).2 = cachePairs st.inst := by
        unfold cachePairs
        rw [hcl]
      refine ⟨?_, ?_⟩
      · show InstInv (bb_alloc_pages st.inst order).2
          (((i, order) :: st.allocated) ++ cachePairs (bb_alloc_pages st.inst order).2
            ++ st.cachedOut.map (fun j => (j, 0)))
        rw [hcp]
        exact hinv1
      · intro e he
        have he2 : e ∈ (bb_alloc_pages st.inst order).2.free_pages_cache_list := he
        rw [hcl] at he2
        exact h.2 e he2
  | free idx =>
    have happ : applyOp st (.free idx) =
        (match st.allocated.find? (fun p => p.1 == idx) with
          | some p => { st with
              inst := bb_free_pages st.inst idx
              allocated := st.allocated.erase p }
          | none => st) := rfl
    cases hfind : st.allocated.find? (fun p => p.1 == idx) with
    | none =>
      rw [happ, hfind]
      exact h
    | some p =>
      rw [happ, hfind]
      have hmem : p ∈ st.allocated := List.mem_of_find?_eq_some hfind
      have hp1 : p.1 = idx := by
        have := List.find?_some hfind
        simpa using this
      have hperm : List.Perm (outs st)
          (p :: (st.allocated.erase p ++ cachePairs st.inst
            ++ st.cachedOut.map (fun j => (j, 0)))) := by
        rw [outs_eq, List.append_assoc, List.append_assoc]
        have h0 := (perm_cons_erase_pair hmem).append_right
          (cachePairs st.inst ++ st.cachedOut.map (fun j => (j, 0)))
        rw [List.cons_append] at h0
        exact h0
      have hinv' : InstInv st.inst ((p.1, p.2) ::
          (st.allocated.erase p ++ cachePairs st.inst
            ++ st.cachedOut.map (fun j => (j, 0)))) := InstInv_perm hperm h.1
      obtain ⟨hfree, hshf⟩ := bb_free_spec st.inst _ p.1 p.2 hinv'
      rw [hp1] at hfree hshf
      have hcl : (bb_free_pages st.inst idx).free_pages_cache_list =
          st.inst.free_pages_cache_list := hshf.2.2.2.2.1
      have hcp : cachePairs (bb_free_pages st.inst idx) = cachePairs st.inst := by
        unfold cachePairs
        rw [hcl]
      refine ⟨?_, ?_⟩
      · show InstInv (bb_free_pages st.inst idx)
          (st.allocated.erase p ++ cachePairs (bb_free_pages st.inst idx)
            ++ st.cachedOut.map (fun j => (j, 0)))
        rw [hcp]
        exact hfree
      · intro e he
        have he2 : e ∈ (bb_free_pages st.inst idx).free_pages_cache_list := he
        rw [hcl] at he2
        exact h.2 e he2
  | cachedAlloc =>
    have happ : applyOp st .cachedAlloc =
        (if cachedAllocOk st.inst then
          { st with
            inst := (cached_alloc st.inst).2
            cachedOut := (cached_alloc st.inst).1.getD 0 :: st.cachedOut }
        else st) := rfl
    rw [happ]
    split
    · next hok =>
      obtain ⟨i, hr, hinv1, hsome1⟩ := cached_alloc_inv st.inst st.allocated
        (st.cachedOut.map (fun j => (j, 0))) h.1 hok
      rw [hr]
      exact ⟨hinv1, hsome1⟩
    · exact h
  | cachedFree idx =>
    have happ : applyOp st (.cachedFree idx) =
        (if st.cachedOut.contains idx then
          { st with
            inst := cached_free st.inst idx
            cachedOut := st.cachedOut.erase idx }
        else st) := rfl
    rw [happ]
    split
    · next hctn =>
      have hmem : idx ∈ st.cachedOut := by simpa using hctn
      have hperm : List.Perm (outs st)
          (st.allocated ++ cachePairs st.inst ++
            ((idx, 0) :: (st.cachedOut.erase idx).map (fun j => (j, 0)))) := by
        rw [outs_eq]
        exact List.Perm.append_left _ ((List.perm_cons_erase hmem).map _)
      obtain ⟨h2, h3⟩ := cached_free_inv st.inst idx st.allocated
        ((st.cachedOut.erase idx).map (fun j => (j, 0))) (InstInv_perm hperm h.1) h.2
      exact ⟨h2, h3⟩
    · exact h

theorem runOps_inv : ∀ (ops : List BBOp) (st : SysState), SysInv st → SysInv (runOps st ops) := by
  intro ops
  induction ops with
  | nil => intro st h; exact h
  | cons op ops ih =>
    intro st h
    exact ih (applyOp st op) (applyOp_inv st op h)

theorem reachable_inv (st : SysState) (h : ReachableSys st) : SysInv st := by
  obtain ⟨M, T, st0, ops, hM, hinit, rfl⟩ := h
  apply runOps_inv
  rw [initState] at hinit
  cases hbi : buddy_system_init M T with
  | none => rw [hbi] at hinit; exact absurd hinit (by simp)
  | some inst0 =>
    rw [hbi] at hinit
    obtain ⟨hinv0, -, -, hcl0, -⟩ := buddy_system_init_inv M T hM inst0 hbi
    have hst0 : st0 = ⟨inst0, [], []⟩ := by
      simpa using hinit.symm
    rw [hst0]
    refine ⟨?_, ?_⟩
    · show InstInv inst0 ([] ++ cachePairs inst0 ++ ([] : List Nat).map (fun j => (j, 0)))
      have : cachePairs inst0 = [] := by
        simp [cachePairs, hcl0]
      rw [this]
      exact hinv0
    · intro e he
      rw [show (⟨inst0, [], []⟩ : SysState).inst.free_pages_cache_list =
        inst0.free_pages_cache_list from rfl, hcl0] at he
      exact absurd he (List.not_mem_nil e)

/-! ## Concrete buddy instances for the spec's scenarios -/

/-- A throwaway default instance (only used as the `getD` fallback below;
the inits in question all succeed). -/
def defaultBB : BBInstance := ⟨0, 0, [], [], [], 0⟩

/-- The spec's exhaustion scenario: 4 pages, `MAX_ORDER = 3`. -/
def inst34 : BBInstance := (buddy_system_init 3 4).getD defaultBB

/-- The spec's cache-hysteresis scenario: 40 pages, `MAX_ORDER = 2`, so the
buddy can cover the full `MID = 40` order-0 refill. -/
def inst240 : BBInstance := (buddy_system_init 2 40).getD defaultBB

/-- System state right after `buddy_system_init 3 4`. -/
def st34 : SysState := ⟨inst34, [], []⟩

/-- System state right after `buddy_system_init 2 40`. -/
def st240 : SysState := ⟨inst240, [], []⟩

/-- The "allocated" term of the spec's conservation law: the pages handed
out to callers and not yet returned — the ghost `allocated` blocks of
`2 ^ order` pages each plus the order-0 pages handed out by
`__cached_alloc` — in bytes. -/
def allocated_space (st : SysState) : Nat :=
  (st.allocated.foldr (fun p a => 2 ^ p.2 + a) 0 + st.cachedOut.length) * PAGE_SIZE

/-! ## Scheduler embedding (`scheduler_algorithm.c`)

The runqueue is the circular `run_list` ring: a sentinel head
(`runqueue->queue`) followed by the tasks in queue order, with
`runqueue->curr` pointing at one of the tasks.  We model the ring as the
task list in queue order plus the index of `curr`, and a scheduler's
"return a task pointer" as returning the task's index (resolved and
mutated through the list, as the C code does through the pointer). -/

/-- `task_state`: only `TASK_RUNNING` is inspected by the algorithms; the
other states are collapsed into representative non-running values. -/
inductive TaskState where
  | running
  | interruptible
  | uninterruptible
  | stopped
  | zombie
  deriving DecidableEq

/-- The `sched_entity` fields the scheduling algorithms read or write. -/
structure SchedEntity where
  is_periodic : Bool
  is_under_analysis : Bool
  executed : Bool
  period : Nat
  deadline : Nat
  next_period : Nat
  exec_start : Nat
  exec_runtime : Nat
  sum_exec_runtime : Nat
  vruntime : Nat
  deriving DecidableEq

/-- A `task_struct`, reduced to the fields the algorithms use. -/
structure Task where
  pid : Nat
  state : TaskState
  se : SchedEntity
  deriving DecidableEq

/-- A `runqueue_t`: the tasks in queue order (the ring minus the sentinel)
and the index of `runqueue->curr`. -/
structure Runqueue where
  tasks : List Task
  curr : Nat
  deriving DecidableEq

/-- Fallback task for out-of-range reads (never hit on verified paths). -/
def defaultTask : Task :=
  ⟨0, TaskState.stopped, ⟨false, false, false, 0, 0, 0, 0, 0, 0, 0⟩⟩

/-- The task at index `i` of the queue. -/
def Runqueue.taskAt (rq : Runqueue) (i : Nat) : Task :=
  rq.tasks.getD i defaultTask

/-- `__is_periodic_task`: periodic and not under analysis. -/
def is_periodic_task (t : Task) : Bool :=
  t.se.is_periodic && !t.se.is_under_analysis

/-- The index order in which `list_for_each` starting from
`runqueue->curr->run_list` visits the tasks once the sentinel
`&runqueue->queue` is skipped: the tasks after `curr` in queue order,
wrapping past the list head to the tasks before `curr` (`list_head.h` is
not among the sources; this is the circular-list traversal the spec
describes). -/
def ringIdx (rq : Runqueue) : List Nat :=
  (List.range rq.tasks.length).drop (rq.curr + 1)
    ++ (List.range rq.tasks.length).take rq.curr

/-- The `continue` filter of `__scheduler_rr`'s loop: runnable, and not a
periodic task when `skip_periodic` is set. -/
def rrEligible (skip_periodic : Bool) (t : Task) : Bool :=
  t.state == TaskState.running && !(is_periodic_task t && skip_periodic)

/-- `__scheduler_rr`: if the ring of `runqueue->curr` holds at most one
task (`list_head_size(&runqueue->curr->run_list) <= 1`, i.e. the sentinel
plus no other task), return `curr`; otherwise return the first eligible
task strictly after `curr` in ring order, or `NULL` (`none`) when the scan
comes back around to `curr` without a hit. -/
def scheduler_rr (rq : Runqueue) (skip_periodic : Bool) : Option Nat :=
  if rq.tasks.length ≤ 1 then some rq.curr
  else (ringIdx rq).find? (fun i => rrEligible skip_periodic (rq.taskAt i))

/-- `UINT_MAX`, the initial "nearest deadline". -/
def UINT_MAX : Nat := 4294967295

/-- Modelled from the spec: the elided (`/*...*/`) re-activation of
`__scheduler_edf` — clear `executed`, advance `deadline` and
`next_period` by `period`. -/
def edfRollover (t : Task) : Task :=
  { t with se := { t.se with
      executed := false
      deadline := t.se.deadline + t.se.period
      next_period := t.se.next_period + t.se.period } }

/-- The tasks `__scheduler_edf` re-activates on a pass at tick `now`:
runnable periodic tasks already `executed` whose period is starting again
(the elided guard, modelled from the spec as `next_period <= now`). -/
def edfRolls (now : Nat) (t : Task) : Bool :=
  t.state == TaskState.running && is_periodic_task t && t.se.executed &&
    decide (t.se.next_period ≤ now)

/-- The tasks `__scheduler_edf`'s minimum-deadline selection considers:
runnable periodic tasks with `executed` set whose period has not started
again (the selection sits in the `else` of the rollover test, inside
`if (entry->se.executed)`). -/
def edfSelEligible (now : Nat) (t : Task) : Bool :=
  t.state == TaskState.running && is_periodic_task t && t.se.executed &&
    !(decide (t.se.next_period ≤ now))

/-- The scan loop of `__scheduler_edf` over the queue (skipping the
sentinel), carrying the next position `i`, the best candidate `next` and
the minimum deadline `min`; the elided comparisons are modelled from the
spec (`next_period <= now` for rollover, `deadline < min` for selection,
`min := deadline` on a hit).  Returns the mutated task list and the
selected index. -/
def edfLoop (now : Nat) : List Task → Nat → Option Nat → Nat → List Task × Option Nat
  | [], _, next, _ => ([], next)
  | t :: rest, i, next, min =>
    if t.state == TaskState.running && is_periodic_task t && t.se.executed then
      if t.se.next_period ≤ now then
        let r := edfLoop now rest (i + 1) next min
        (edfRollover t :: r.1, r.2)
      else if t.se.deadline < min then
        let r := edfLoop now rest (i + 1) (some i) t.se.deadline
        (t :: r.1, r.2)
      else
        let r := edfLoop now rest (i + 1) next min
        (t :: r.1, r.2)
    else
      let r := edfLoop now rest (i + 1) next min
      (t :: r.1, r.2)

/-- `__scheduler_edf`: run the scan, then return the selected task, or
fall back to `__scheduler_rr(runqueue, false)` when no periodic task was
picked. -/
def scheduler_edf (rq : Runqueue) (now : Nat) : Runqueue × Option Nat :=
  let r := edfLoop now rq.tasks 0 none UINT_MAX
  let rq1 : Runqueue := { rq with tasks := r.1 }
  (rq1, match r.2 with
    | some i => some i
    | none => scheduler_rr rq1 false)

/-- The scheduling algorithm selected at build time (`SCHEDULER_RR` or
`SCHEDULER_EDF`). -/
inductive SchedulerPolicy where
  | rr
  | edf
  deriving DecidableEq

/-- `__update_task_statistics(task)` at tick `now`: in the `SCHEDULER_RR`
build the whole body is compiled out; in the `SCHEDULER_EDF` build it sets
`exec_runtime = now - exec_start`, accumulates `sum_exec_runtime`, and for
a non-periodic task adds the (weighted) runtime to `vruntime` — the
weighting uses `GET_WEIGHT` of `prio.h`, not among the sources; modelled
from the spec with the default `NICE_0_LOAD` weight, factor 1. -/
def update_task_statistics (policy : SchedulerPolicy) (now : Nat) (t : Task) : Task :=
  match policy with
  | .rr => t
  | .edf =>
    let er := now - t.se.exec_start
    let t1 := { t with se := { t.se with
        exec_runtime := er
        sum_exec_runtime := t.se.sum_exec_runtime + er } }
    if !t1.se.is_periodic then
      { t1 with se := { t1.se with vruntime := t1.se.vruntime + t1.se.exec_runtime } }
    else t1

/-- The `__update_task_statistics(runqueue->curr)` call at the top of
`scheduler_pick_next_task`, applied through the queue. -/
def statsRq (policy : SchedulerPolicy) (rq : Runqueue) (now : Nat) : Runqueue :=
  match rq.tasks.get? rq.curr with
  | some t =>
    { rq with tasks := rq.tasks.set rq.curr (update_task_statistics policy now t) }
  | none => rq

/-- The tail of `scheduler_pick_next_task`: `next->se.exec_start =
timer_get_ticks()` on the selected task. -/
def stampTask (now : Nat) (t : Task) : Task :=
  { t with se := { t.se with exec_start := now } }

/-- The return path of `scheduler_pick_next_task`: resolve the selected
index, stamp its `exec_start`, and hand the task back; a `NULL` selection
(`none`) is the state on which the C `assert(next && ...)` fires. -/
def finishPick (rq : Runqueue) (now : Nat) : Option Nat → Runqueue × Option Task
  | none => (rq, none)
  | some i =>
    match rq.tasks.get? i with
    | none => (rq, none)
    | some t =>
      ({ rq with tasks := rq.tasks.set i (stampTask now t) }, some (stampTask now t))

/-- `scheduler_pick_next_task`: update the statistics of `curr`, run the
build's algorithm, and — when it found a task — stamp the selected task's
`exec_start` with the current tick and return it. -/
def scheduler_pick_next_task (policy : SchedulerPolicy) (rq : Runqueue) (now : Nat) :
    Runqueue × Option Task :=
  let rq1 := statsRq policy rq now
  let r :=
    match policy with
    | .rr => (rq1, scheduler_rr rq1 false)
    | .edf => scheduler_edf rq1 now
  finishPick r.1 now r.2

/-! ## Concrete runqueues for the spec's scenarios -/

/-- An aperiodic task with the given pid and state. -/
def mkTask (pid : Nat) (st : TaskState) : Task :=
  ⟨pid, st, ⟨false, false, false, 0, 0, 0, 0, 0, 0, 0⟩⟩

/-- The rotation scenario's queue: `[A, B, C]`, all `RUNNING`
(pids 1, 2, 3). -/
def tasksABC : List Task :=
  [mkTask 1 TaskState.running, mkTask 2 TaskState.running, mkTask 3 TaskState.running]

/-- Runqueue `[A, B]` with `A` RUNNING as `curr` and `B` stopped: no task
other than `curr` is eligible. -/
def rqAB : Runqueue := ⟨[mkTask 1 TaskState.running, mkTask 2 TaskState.stopped], 0⟩

/-- Runqueue `[idle, B]` with the always-RUNNING idle task as `curr` and
`B` stopped: a RUNNING task exists, yet it is `curr`. -/
def rqIdle : Runqueue := ⟨[mkTask 0 TaskState.running, mkTask 7 TaskState.stopped], 0⟩

/-- A runqueue used as the round-robin witness: two RUNNING tasks. -/
def rqTwo : Runqueue := ⟨[mkTask 4 TaskState.running, mkTask 5 TaskState.running], 0⟩

/-- The EDF rollover scenario's task: periodic, RUNNING, `executed`,
`period = 100`, `deadline = 100`, `next_period = 100`. -/
def edfTaskRoll : Task :=
  ⟨1, TaskState.running, ⟨true, false, true, 100, 100, 100, 0, 0, 0, 0⟩⟩

/-- Single-task runqueue for the EDF rollover scenario. -/
def rqEdfRoll : Runqueue := ⟨[edfTaskRoll], 0⟩

/-- A periodic RUNNING task not yet executed in its period, deadline 50. -/
def edfTaskFresh : Task :=
  ⟨1, TaskState.running, ⟨true, false, false, 100, 50, 1000, 0, 0, 0, 0⟩⟩

/-- A periodic RUNNING task already executed in its period, deadline 150. -/
def edfTaskDone : Task :=
  ⟨2, TaskState.running, ⟨true, false, true, 100, 150, 1000, 0, 0, 0, 0⟩⟩

/-- Runqueue holding the not-yet-executed deadline-50 task and the
executed deadline-150 task. -/
def rqEdfSel : Runqueue := ⟨[edfTaskFresh, edfTaskDone], 0⟩

/-! ## Scheduler lemmas -/

theorem set_get?_self {α : Type} : ∀ (l : List α) (n : Nat) (a : α),
    l.get? n = some a → l.set n a = l := by
  intro l
  induction l with
  | nil => intro n a h; cases h
  | cons x l ih =>
    intro n a h
    cases n with
    | zero =>
      injection h with h
      rw [List.set, h]
    | succ n =>
      rw [List.set, ih n a h]

theorem statsRq_rr (rq : Runqueue) (now : Nat) : statsRq SchedulerPolicy.rr rq now = rq := by
  rw [statsRq]
  split
  · next t hg =>
    rw [show update_task_statistics SchedulerPolicy.rr now t = t from rfl,
      set_get?_self rq.tasks rq.curr t hg]
  · rfl

theorem taskAt_get? (rq : Runqueue) (i : Nat) (h : i < rq.tasks.length) :
    rq.tasks.get? i = some (rq.taskAt i) := by
  cases hg : rq.tasks.get? i with
  | none =>
    exfalso
    rw [List.get?_eq_none] at hg
    omega
  | some t =>
    have ht : rq.taskAt i = t := by
      rw [Runqueue.taskAt, List.getD_eq_get?, hg]
      rfl
    rw [ht]

theorem mem_ringIdx_lt (rq : Runqueue) : ∀ i ∈ ringIdx rq, i < rq.tasks.length := by
  intro i hi
  rw [ringIdx] at hi
  rcases List.mem_append.mp hi with h | h
  · exact List.mem_range.mp (List.mem_of_mem_drop h)
  · exact List.mem_range.mp (List.mem_of_mem_take h)

theorem find?_split {α : Type} (p : α → Bool) :
    ∀ (l : List α) (a : α), l.find? p = some a →
      ∃ pre suf, l = pre ++ a :: suf ∧ p a = true ∧ ∀ x ∈ pre, p x = false := by
  intro l
  induction l with
  | nil => intro a h; cases h
  | cons x l ih =>
    intro a h
    by_cases hp : p x = true
    · rw [List.find?_cons_of_pos _ hp] at h
      injection h with h
      subst h
      exact ⟨[], l, rfl, hp, by intro y hy; cases hy⟩
    · rw [List.find?_cons_of_neg _ (by simpa using hp)] at h
      obtain ⟨pre, suf, heq, hpa, hpre⟩ := ih a h
      refine ⟨x :: pre, suf, by rw [heq]; rfl, hpa, ?_⟩
      intro y hy
      rcases List.mem_cons.mp hy with rfl | hy2
      · simpa using hp
      · exact hpre y hy2

theorem pick_next_rr_eq (rq : Runqueue) (now : Nat) :
    scheduler_pick_next_task SchedulerPolicy.rr rq now =
      finishPick (statsRq SchedulerPolicy.rr rq now) now
        (scheduler_rr (statsRq SchedulerPolicy.rr rq now) false) := rfl

/-- C7 (corrected).  Round-robin selection: when the runqueue holds a
single task the function returns `curr`; otherwise it scans the ring
strictly after `curr` (wrapping past the list head) and returns the first
task that is `RUNNING` and not skipped as periodic — and when no such task
exists it returns `NULL`, not `curr`.  On the queue `[A, B, C]` all
`RUNNING` with `curr = A`, successive `pick_next` calls (with `curr`
advanced to the returned task) yield B, C, A. -/
theorem C7_rr_selection (rq : Runqueue) (skip : Bool) :
    (rq.tasks.length ≤ 1 → scheduler_rr rq skip = some rq.curr) ∧
    (1 < rq.tasks.length →
      ((scheduler_rr rq skip = none) ↔
        ∀ i ∈ ringIdx rq, rrEligible skip (rq.taskAt i) = false) ∧
      (∀ i, scheduler_rr rq skip = some i →
        ∃ pre suf, ringIdx rq = pre ++ i :: suf ∧
          rrEligible skip (rq.taskAt i) = true ∧
          ∀ j ∈ pre, rrEligible skip (rq.taskAt j) = false)) ∧
    ((scheduler_pick_next_task SchedulerPolicy.rr ⟨tasksABC, 0⟩ 0).2.map Task.pid
        = some 2 ∧
      (scheduler_pick_next_task SchedulerPolicy.rr ⟨tasksABC, 1⟩ 0).2.map Task.pid
        = some 3 ∧
      (scheduler_pick_next_task SchedulerPolicy.rr ⟨tasksABC, 2⟩ 0).2.map Task.pid
        = some 1) := by
  refine ⟨?_, ?_, by decide, by decide, by decide⟩
  · intro h
    rw [scheduler_rr, if_pos h]
  · intro h
    constructor
    · rw [scheduler_rr, if_neg (by omega)]
      constructor
      · intro hn i hi
        exact Bool.eq_false_iff.mpr (List.find?_eq_none.mp hn i hi)
      · intro hall
        rw [List.find?_eq_none]
        intro i hi
        rw [hall i hi]
        simp
    · intro i hi
      rw [scheduler_rr, if_neg (by omega)] at hi
      exact find?_split _ (ringIdx rq) i hi

/-- C7 counterexample: on the queue `[A RUNNING (curr), B stopped]` no
task other than `curr` is eligible, yet `__scheduler_rr` returns `NULL`
(`none`), not `curr`, although `curr` itself is `RUNNING`. -/
theorem C7_counterexample :
    scheduler_rr rqAB false = none ∧ rqAB.curr = 0 ∧
      (rqAB.taskAt 0).state = TaskState.running ∧ 1 < rqAB.tasks.length := by
  decide

/-- C8 (corrected).  `pick_next` returns a `RUNNING` task with its
`exec_start` stamped to the current tick provided a task other than
`curr` — in the ring strictly after `curr` — is eligible; the claim's
premise "some task is RUNNING" is not enough, because the scan never
reconsiders `curr` (see the counterexample). -/
theorem C8_pick_next_running (rq : Runqueue) (now : Nat)
    (h1 : 1 < rq.tasks.length)
    (h2 : ∃ i ∈ ringIdx rq, rrEligible false (rq.taskAt i) = true) :
    ∃ t, (scheduler_pick_next_task SchedulerPolicy.rr rq now).2 = some t ∧
      t.state = TaskState.running ∧ t.se.exec_start = now := by
  cases hf : (ringIdx rq).find? (fun i => rrEligible false (rq.taskAt i)) with
  | none =>
    exfalso
    obtain ⟨i, hi, he⟩ := h2
    have := List.find?_eq_none.mp hf i hi
    rw [he] at this
    exact this rfl
  | some i =>
    have hp : rrEligible false (rq.taskAt i) = true := by
      have hp0 := List.find?_some hf
      simpa using hp0
    have hmem : i ∈ ringIdx rq := List.mem_of_find?_eq_some hf
    have hlt : i < rq.tasks.length := mem_ringIdx_lt rq i hmem
    have hrr : scheduler_rr rq false = some i := by
      rw [scheduler_rr, if_neg (by omega)]
      exact hf
    have hget : rq.tasks.get? i = some (rq.taskAt i) := taskAt_get? rq i hlt
    refine ⟨stampTask now (rq.taskAt i), ?_, ?_, rfl⟩
    · rw [pick_next_rr_eq, statsRq_rr, hrr, finishPick, hget]
    · show (rq.taskAt i).state = TaskState.running
      rw [rrEligible, Bool.and_eq_true] at hp
      simpa using hp.1

/-- C8 counterexample: on the queue `[idle RUNNING (curr), B stopped]` a
`RUNNING` task exists (the idle task), yet `pick_next` returns `NULL`
(the state on which the C assert fires). -/
theorem C8_counterexample :
    (∃ t ∈ rqIdle.tasks, t.state = TaskState.running) ∧
      (scheduler_pick_next_task SchedulerPolicy.rr rqIdle 5).2 = none := by
  decide

/-- Witness for C8: on a two-task queue of `RUNNING` tasks, the theorem
applied at tick 7 yields the selected task with `exec_start = 7`. -/
theorem C8_pick_next_running_witness :
    ∃ t, (scheduler_pick_next_task SchedulerPolicy.rr rqTwo 7).2 = some t ∧
      t.state = TaskState.running ∧ t.se.exec_start = 7 :=
  C8_pick_next_running rqTwo 7 (by decide) (by decide)

theorem edfLoop_fst (now : Nat) : ∀ (l : List Task) (i : Nat) (next : Option Nat) (min : Nat),
    (edfLoop now l i next min).1
      = l.map (fun t => if edfRolls now t then edfRollover t else t) := by
  intro l
  induction l with
  | nil => intro i next min; rfl
  | cons t rest ih =>
    intro i next min
    rw [edfLoop]
    by_cases h1 : (t.state == TaskState.running && is_periodic_task t && t.se.executed) = true
    · rw [if_pos h1]
      by_cases h2 : t.se.next_period ≤ now
      · rw [if_pos h2]
        have hroll : edfRolls now t = true := by
          rw [edfRolls, h1]
          simpa using h2
        show edfRollover t :: (edfLoop now rest (i + 1) next min).1 = _
        rw [ih, List.map_cons, if_pos hroll]
      · rw [if_neg h2]
        have hroll : edfRolls now t = false := by
          rw [edfRolls]
          simp [h2]
        by_cases h3 : t.se.deadline < min
        · rw [if_pos h3]
          show t :: (edfLoop now rest (i + 1) (some i) t.se.deadline).1 = _
          rw [ih, List.map_cons, if_neg (by rw [hroll]; exact Bool.noConfusion)]
        · rw [if_neg h3]
          show t :: (edfLoop now rest (i + 1) next min).1 = _
          rw [ih, List.map_cons, if_neg (by rw [hroll]; exact Bool.noConfusion)]
    · rw [if_neg h1]
      have h1f : (t.state == TaskState.running && is_periodic_task t && t.se.executed) = false :=
        by simpa using h1
      have hroll : edfRolls now t = false := by
        rw [edfRolls, h1f]
        rfl
      show t :: (edfLoop now rest (i + 1) next min).1 = _
      rw [ih, List.map_cons, if_neg (by rw [hroll]; exact Bool.noConfusion)]

theorem edfLoop_sel (now : Nat) : ∀ (l : List Task) (k : Nat) (next : Option Nat) (min : Nat),
    ((edfLoop now l k next min).2 = next ∧
      ∀ t ∈ l, edfSelEligible now t = true → min ≤ t.se.deadline) ∨
    (∃ j, ∃ hj : j < l.length, (edfLoop now l k next min).2 = some (k + j) ∧
      edfSelEligible now (l.getD j defaultTask) = true ∧
      (l.getD j defaultTask).se.deadline < min ∧
      ∀ t ∈ l, edfSelEligible now t = true →
        (l.getD j defaultTask).se.deadline ≤ t.se.deadline) := by
  intro l
  induction l with
  | nil =>
    intro k next min
    left
    exact ⟨rfl, by intro t ht; cases ht⟩
  | cons t rest ih =>
    intro k next min
    rw [edfLoop]
    by_cases h1 : (t.state == TaskState.running && is_periodic_task t && t.se.executed) = true
    · rw [if_pos h1]
      by_cases h2 : t.se.next_period ≤ now
      · rw [if_pos h2]
        have hne : edfSelEligible now t = false := by
          rw [edfSelEligible, h1]
          simp [h2]
        rcases ih (k + 1) next min with ⟨e1, e2⟩ | ⟨j, hj, e1, e2, e3, e4⟩
        · left
          refine ⟨e1, ?_⟩
          intro t' ht' he'
          rcases List.mem_cons.mp ht' with rfl | ht2
          · rw [hne] at he'
            exact Bool.noConfusion he'
          · exact e2 t' ht2 he'
        · right
          refine ⟨j + 1, by simpa using Nat.succ_lt_succ hj, ?_, ?_, ?_, ?_⟩
          · show (edfLoop now rest (k + 1) next min).2 = _
            rw [e1]
            rw [show k + (j + 1) = k + 1 + j by omega]
          · rw [List.getD_cons_succ]
            exact e2
          · rw [List.getD_cons_succ]
            exact e3
          · intro t' ht' he'
            rw [List.getD_cons_succ]
            rcases List.mem_cons.mp ht' with rfl | ht2
            · rw [hne] at he'
              exact Bool.noConfusion he'
            · exact e4 t' ht2 he'
      · rw [if_neg h2]
        have hel : edfSelEligible now t = true := by
          rw [edfSelEligible, h1]
          simp [h2]
        by_cases h3 : t.se.deadline < min
        · rw [if_pos h3]
          rcases ih (k + 1) (some k) t.se.deadline with ⟨e1, e2⟩ | ⟨j, hj, e1, e2, e3, e4⟩
          · right
            refine ⟨0, by simp, ?_, ?_, ?_, ?_⟩
            · show (edfLoop now rest (k + 1) (some k) t.se.deadline).2 = _
              rw [e1, Nat.add_zero]
            · rw [List.getD_cons_zero]
              exact hel
            · rw [List.getD_cons_zero]
              exact h3
            · intro t' ht' he'
              rw [List.getD_cons_zero]
              rcases List.mem_cons.mp ht' with rfl | ht2
              · exact Nat.le_refl _
              · exact e2 t' ht2 he'
          · right
            refine ⟨j + 1, by simpa using Nat.succ_lt_succ hj, ?_, ?_, ?_, ?_⟩
            · show (edfLoop now rest (k + 1) (some k) t.se.deadline).2 = _
              rw [e1]
              rw [show k + (j + 1) = k + 1 + j by omega]
            · rw [List.getD_cons_succ]
              exact e2
            · rw [List.getD_cons_succ]
              exact Nat.lt_trans e3 h3
            · intro t' ht' he'
              rw [List.getD_cons_succ]
              rcases List.mem_cons.mp ht' with rfl | ht2
              · exact Nat.le_of_lt e3
              · exact e4 t' ht2 he'
        · rw [if_neg h3]
          rcases ih (k + 1) next min with ⟨e1, e2⟩ | ⟨j, hj, e1, e2, e3, e4⟩
          · left
            refine ⟨e1, ?_⟩
            intro t' ht' he'
            rcases List.mem_cons.mp ht' with rfl | ht2
            · omega
            · exact e2 t' ht2 he'
          · right
            refine ⟨j + 1, by simpa using Nat.succ_lt_succ hj, ?_, ?_, ?_, ?_⟩
            · show (edfLoop now rest (k + 1) next min).2 = _
              rw [e1]
              rw [show k + (j + 1) = k + 1 + j by omega]
            · rw [List.getD_cons_succ]
              exact e2
            · rw [List.getD_cons_succ]
              exact e3
            · intro t' ht' he'
              rw [List.getD_cons_succ]
              rcases List.mem_cons.mp ht' with rfl | ht2
              · omega
              · exact e4 t' ht2 he'
    · rw [if_neg h1]
      have h1f : (t.state == TaskState.running && is_periodic_task t && t.se.executed) = false :=
        by simpa using h1
      have hne : edfSelEligible now t = false := by
        rw [edfSelEligible, h1f]
        rfl
      rcases ih (k + 1) next min with ⟨e1, e2⟩ | ⟨j, hj, e1, e2, e3, e4⟩
      · left
        refine ⟨e1, ?_⟩
        intro t' ht' he'
        rcases List.mem_cons.mp ht' with rfl | ht2
        · rw [hne] at he'
          exact Bool.noConfusion he'
        · exact e2 t' ht2 he'
      · right
        refine ⟨j + 1, by simpa using Nat.succ_lt_succ hj, ?_, ?_, ?_, ?_⟩
        · show (edfLoop now rest (k + 1) next min).2 = _
          rw [e1]
          rw [show k + (j + 1) = k + 1 + j by omega]
        · rw [List.getD_cons_succ]
          exact e2
        · rw [List.getD_cons_succ]
          exact e3
        · intro t' ht' he'
          rw [List.getD_cons_succ]
          rcases List.mem_cons.mp ht' with rfl | ht2
          · rw [hne] at he'
            exact Bool.noConfusion he'
          · exact e4 t' ht2 he'

/-- C9 (corrected, over spec-modelled rollover conditions).  One
`__scheduler_edf` pass re-activates exactly the runnable periodic
`executed` tasks whose `next_period` has arrived — clearing `executed`
and advancing `deadline` and `next_period` by `period` — and when the
scan selects a task, that task is a smallest-deadline one among the
runnable periodic tasks that HAVE `executed` set and have not rolled over
(not, as the claim says, among the not-yet-executed ones).  The claim's
single-task scenario holds: at tick 100 the task rolls over to
deadline 200, next_period 200 and is selected (via the round-robin
fallback). -/
theorem C9_edf_rollover (rq : Runqueue) (now : Nat) :
    (scheduler_edf rq now).1.tasks
        = rq.tasks.map (fun t => if edfRolls now t then edfRollover t else t) ∧
    (∀ i, (edfLoop now rq.tasks 0 none UINT_MAX).2 = some i →
      (scheduler_edf rq now).2 = some i ∧ i < rq.tasks.length ∧
      edfSelEligible now (rq.taskAt i) = true ∧
      ∀ t ∈ rq.tasks, edfSelEligible now t = true →
        (rq.taskAt i).se.deadline ≤ t.se.deadline) ∧
    ((scheduler_pick_next_task SchedulerPolicy.edf rqEdfRoll 100).2.map
        (fun t => (t.pid, t.se.executed, t.se.deadline, t.se.next_period)) =
      some (1, false, 200, 200)) := by
  refine ⟨?_, ?_, by decide⟩
  · show (edfLoop now rq.tasks 0 none UINT_MAX).1 = _
    exact edfLoop_fst now rq.tasks 0 none UINT_MAX
  · intro i hi
    rcases edfLoop_sel now rq.tasks 0 none UINT_MAX with ⟨e1, -⟩ | ⟨j, hj, e1, e2, e3, e4⟩
    · rw [hi] at e1
      exact Option.noConfusion e1
    · rw [hi] at e1
      injection e1 with e1
      have hij : i = j := by omega
      subst hij
      refine ⟨?_, hj, e2, e4⟩
      have h2 : (scheduler_edf rq now).2 =
          (match (edfLoop now rq.tasks 0 none UINT_MAX).2 with
           | some j => some j
           | none => scheduler_rr
              { rq with tasks := (edfLoop now rq.tasks 0 none UINT_MAX).1 } false) := rfl
      rw [h2, hi]

/-- C9 counterexample: with a not-yet-executed periodic RUNNING task of
deadline 50 and an already-executed one of deadline 150 on the queue, the
code selects the executed deadline-150 task — not the smallest-deadline
not-yet-executed one the claim describes. -/
theorem C9_counterexample :
    (scheduler_pick_next_task SchedulerPolicy.edf rqEdfSel 10).2.map Task.pid = some 2 ∧
    (rqEdfSel.taskAt 0).se.executed = false ∧
    (rqEdfSel.taskAt 0).se.deadline = 50 ∧
    is_periodic_task (rqEdfSel.taskAt 0) = true ∧
    (rqEdfSel.taskAt 0).state = TaskState.running ∧
    (rqEdfSel.taskAt 1).se.deadline = 150 ∧
    (rqEdfSel.taskAt 1).se.executed = true := by
  decide

/-! ## The buddy claims -/

/-- C10.  The refill path of `__cached_alloc` never tests the buddy
result: whenever `bb_alloc_pages(instance, 0)` yields `NULL` during a
non-empty `__cache_extend`, the `NULL` is linked into the cache list with
no error branch; and the operation is total — it returns a real page and
preserves the system invariant — under the caller obligation
`cachedAllocOk` that every refill allocation succeeds and the final pop
finds a page. -/
theorem C10_cache_refill_null :
    (∀ (s : BBInstance) (c : Nat), 0 < c → (bb_alloc_pages s 0).1 = none →
      none ∈ (cache_extend c s).free_pages_cache_list) ∧
    (∀ st : SysState, ReachableSys st → cachedAllocOk st.inst = true →
      ∃ i, (cached_alloc st.inst).1 = some i ∧
        SysInv (applyOp st BBOp.cachedAlloc) ∧
        ∀ e ∈ (cached_alloc st.inst).2.free_pages_cache_list, e.isSome = true) := by
  constructor
  · intro s c hc hnone
    cases c with
    | zero => omega
    | succ c =>
      rw [cache_extend_succ]
      apply cache_extend_mem
      rw [hnone]
      exact List.mem_cons_self _ _
  · intro st hreach hok
    have hsys := reachable_inv st hreach
    obtain ⟨i, hr, -, hsome1⟩ := cached_alloc_inv st.inst st.allocated
      (st.cachedOut.map (fun j => (j, 0))) hsys.1 hok
    exact ⟨i, hr, applyOp_inv st BBOp.cachedAlloc hsys, hsome1⟩

/-- C1 (code bug).  The conservation law fails at a reachable quiescent
point: on the 40-page `MAX_ORDER = 2` instance, after one successful
`cached_alloc`, free space is 0, the cached-space observer reports 80
pages' worth (`buddy_system_get_cached_space` re-adds
`free_pages_cache_size` once per order, and the size counter itself — 40 —
was not decremented by the pop that handed out a page), and one page is
outstanding: 0 + 80 + 1 ≠ 40 pages. -/
theorem C1_conservation_violated :
    initState 2 40 = some st240 ∧
    ReachableSys (runOps st240 [BBOp.cachedAlloc]) ∧
    buddy_system_get_free_space (runOps st240 [BBOp.cachedAlloc]).inst
        + buddy_system_get_cached_space (runOps st240 [BBOp.cachedAlloc]).inst
        + allocated_space (runOps st240 [BBOp.cachedAlloc])
      ≠ buddy_system_get_total_space (runOps st240 [BBOp.cachedAlloc]).inst := by
  refine ⟨by decide, ⟨2, 40, st240, [BBOp.cachedAlloc], by decide, by decide, rfl⟩, by decide⟩

/-- C2 (code bug).  On the fresh 40-page instance, one `cached_alloc`
pulls `MID - 0 = 40` order-0 blocks into the cache (free space drops to
0), pops and returns the head block — but leaves
`free_pages_cache_size = 40`, not the claimed 39: the pop does not
decrement the counter. -/
theorem C2_cached_alloc_size :
    (bb_alloc_page_cached inst240).1 = some 39 ∧
    (bb_alloc_page_cached inst240).2.free_pages_cache_list.length = 39 ∧
    buddy_system_get_free_space (bb_alloc_page_cached inst240).2 = 0 ∧
    (bb_alloc_page_cached inst240).2.free_pages_cache_size = 40 ∧
    (bb_alloc_page_cached inst240).2.free_pages_cache_size ≠ 39 := by
  decide

/-- C3 (corrected).  At every reachable quiescent point: a descriptor is
on a buddy free-list iff it is both FREE and ROOT (and then on exactly
one); a descriptor held by the page cache is ROOT and non-FREE and on no
buddy free-list; a non-FREE descriptor is never on a buddy free-list.
The claim's "FREE ⇔ root ⇔ on exactly one list" is false: the interior
descriptors of a free block are FREE, non-root and on no list (see the
counterexample). -/
theorem C3_free_root_list_invariant (st : SysState) (h : ReachableSys st) :
    ∀ i, i < st.inst.total_pages →
      ((((st.inst.pg i).free = true ∧ (st.inst.pg i).root = true) ↔
          i ∈ st.inst.fl ((st.inst.pg i).order)) ∧
        (∀ k k', i ∈ st.inst.fl k → i ∈ st.inst.fl k' → k = k') ∧
        (some i ∈ st.inst.free_pages_cache_list →
          (st.inst.pg i).root = true ∧ (st.inst.pg i).free = false ∧
            ∀ k, i ∉ st.inst.fl k) ∧
        ((st.inst.pg i).free = false → ∀ k, i ∉ st.inst.fl k)) := by
  intro i hi
  obtain ⟨hinv, -⟩ := reachable_inv st h
  refine ⟨⟨?_, ?_⟩, ?_, ?_, ?_⟩
  · rintro ⟨hfree, hroot⟩
    exact hinv.free_root_mem i hi hroot hfree
  · intro hmem
    obtain ⟨-, hroot, hfree, -, -⟩ := hinv.mem_ok _ i hmem
    exact ⟨hfree, hroot⟩
  · intro k k' h1 h2
    obtain ⟨-, -, -, ho1, -⟩ := hinv.mem_ok k i h1
    obtain ⟨-, -, -, ho2, -⟩ := hinv.mem_ok k' i h2
    omega
  · intro hc
    have hpair : (i, 0) ∈ outs st := by
      rw [outs_eq]
      refine List.mem_append.mpr (Or.inl (List.mem_append.mpr (Or.inr ?_)))
      exact List.mem_filterMap.mpr ⟨some i, hc, rfl⟩
    obtain ⟨-, hroot, hfree, -⟩ := hinv.out_ok (i, 0) hpair
    refine ⟨hroot, hfree, ?_⟩
    intro k hk
    obtain ⟨-, -, hfree2, -, -⟩ := hinv.mem_ok k i hk
    rw [hfree] at hfree2
    exact Bool.noConfusion hfree2
  · intro hfree k hk
    obtain ⟨-, -, hfree2, -, -⟩ := hinv.mem_ok k i hk
    rw [hfree] at hfree2
    exact Bool.noConfusion hfree2

/-- Witness for C3: the invariant instantiated at page 0 of the
freshly initialised 4-page instance. -/
theorem C3_free_root_list_invariant_witness :
    (((st34.inst.pg 0).free = true ∧ (st34.inst.pg 0).root = true) ↔
        0 ∈ st34.inst.fl ((st34.inst.pg 0).order)) ∧
      (∀ k k', 0 ∈ st34.inst.fl k → 0 ∈ st34.inst.fl k' → k = k') ∧
      (some 0 ∈ st34.inst.free_pages_cache_list →
        (st34.inst.pg 0).root = true ∧ (st34.inst.pg 0).free = false ∧
          ∀ k, 0 ∉ st34.inst.fl k) ∧
      ((st34.inst.pg 0).free = false → ∀ k, 0 ∉ st34.inst.fl k) :=
  C3_free_root_list_invariant st34 ⟨3, 4, st34, [], by decide, by decide, rfl⟩ 0 (by decide)

/-- C3 counterexample: on the freshly initialised 4-page instance, page 1
is an interior page of the order-2 free block: it has FREE set, is not a
root, and sits on no list (the free-lists hold only 0, the cache is
empty) — refuting "FREE ⇔ root ⇔ linked into exactly one list". -/
theorem C3_interior_page_counterexample :
    (inst34.pg 1).free = true ∧ (inst34.pg 1).root = false ∧
      inst34.free_pages_cache_list = [] ∧ (∀ k, 1 ∉ inst34.fl k) ∧
      1 < inst34.total_pages := by
  refine ⟨by decide, by decide, by decide, ?_, by decide⟩
  intro k
  by_cases hk : k < 3
  · interval_cases k <;> decide
  · intro hmem
    have hlen : inst34.free_area.length ≤ k := by
      have h3 : inst34.free_area.length = 3 := by decide
      omega
    have hfl : inst34.fl k = [] := by
      rw [BBInstance.fl, List.getD_eq_default _ _ hlen]
    rw [hfl] at hmem
    cases hmem

/-- C4.  `bb_alloc_pages` returns `NULL` exactly when the order is out of
range or every free list of order ≥ `order` is empty; a successful call
returns the root descriptor of a `2^order`-page block — marked non-FREE
ROOT of that order, aligned, in range, off every free list — with the
invariant extended by the new outstanding block.  The spec's exhaustion
scenario (4 pages, `MAX_ORDER = 3`: `alloc(2)` succeeds, then `alloc(0)`
fails) holds. -/
theorem C4_alloc_none_iff (s : BBInstance) (out : List (Nat × Nat)) (order : Nat)
    (hinv : InstInv s out) :
    ((bb_alloc_pages s order).1 = none ↔
      s.max_order ≤ order ∨ ∀ k, order ≤ k → k < s.max_order → s.fl k = []) ∧
    (∀ idx, (bb_alloc_pages s order).1 = some idx →
      InstInv (bb_alloc_pages s order).2 ((idx, order) :: out) ∧
      (bb_alloc_pages s order).2.pg idx = ⟨false, true, order⟩ ∧
      2 ^ order ∣ idx ∧ idx + 2 ^ order ≤ s.total_pages ∧
      (∀ k, idx ∉ (bb_alloc_pages s order).2.fl k)) ∧
    ((bb_alloc_pages inst34 2).1 = some 0 ∧
      (bb_alloc_pages (bb_alloc_pages inst34 2).2 0).1 = none) := by
  refine ⟨⟨?_, ?_⟩, ?_, by decide, by decide⟩
  · intro hn
    rcases bb_alloc_cases s out order hinv with ⟨-, -, hd⟩ | ⟨idx, hr, -⟩
    · exact hd
    · rw [hr] at hn
      exact Option.noConfusion hn
  · intro hd
    by_cases hord : s.max_order ≤ order
    · rw [bb_alloc_pages, if_pos hord]
    · rcases hd with hd | hd
      · omega
      · rw [bb_alloc_pages, if_neg hord]
        have hsearch : searchFreeArea s order (s.max_order - order) = none := by
          rw [searchFreeArea_none]
          intro j hj1 hj2
          exact hd j hj1 (by omega)
        rw [hsearch]
  · intro idx hsome
    rcases bb_alloc_cases s out order hinv with
      ⟨hn, -, -⟩ | ⟨idx', hr, hinv', hdvd, hT, hordlt, hpg, hnl, hsh⟩
    · rw [hn] at hsome
      exact Option.noConfusion hsome
    · rw [hr] at hsome
      injection hsome with he
      subst he
      refine ⟨hinv', hpg, hdvd, ?_, hnl⟩
      have hTot : (bb_alloc_pages s order).2.total_pages = s.total_pages := hsh.2.1
      have hroot : ((bb_alloc_pages s order).2.pg idx').root = true := by rw [hpg]
      have hlt : idx' < (bb_alloc_pages s order).2.total_pages := by
        rw [hTot]
        exact hT
      obtain ⟨-, -, hrange, -⟩ := hinv'.root_ok idx' hlt hroot
      rw [hpg, hTot] at hrange
      simpa using hrange

/-- Witness for C4: the none-iff at order 2 on the freshly initialised
4-page instance. -/
theorem C4_alloc_none_iff_witness :
    (bb_alloc_pages inst34 2).1 = none ↔
      inst34.max_order ≤ 2 ∨ ∀ k, 2 ≤ k → k < inst34.max_order → inst34.fl k = [] :=
  (C4_alloc_none_iff inst34 [] 2
    (buddy_system_init_inv 3 4 (by decide) inst34 (by decide)).1).1

/-- C5.  The three reject branches of `bb_free_pages` — index out of
range, page already FREE (duplicate free), page not ROOT — return with
the instance (free-lists, counters, flags and orders) entirely
unchanged. -/
theorem C5_free_reject_unchanged (s : BBInstance) (idx : Nat)
    (h : s.total_pages ≤ idx ∨ (s.pg idx).free = true ∨ (s.pg idx).root = false) :
    bb_free_pages s idx = s := by
  by_cases h1 : s.total_pages ≤ idx
  · rw [bb_free_pages, if_pos h1]
  · rw [bb_free_pages, if_neg h1]
    simp only []
    by_cases h2 : (s.pg idx).free = true
    · rw [if_pos h2]
    · rcases h with h | h | h
      · omega
      · exact absurd h h2
      · rw [if_neg h2]
        have h3 : (!(s.pg idx).root) = true := by
          rw [h]
          rfl
        rw [if_pos h3]

/-- Witness for C5: the duplicate-free reject on interior page 1 of the
4-page instance leaves the instance unchanged. -/
theorem C5_free_reject_unchanged_witness :
    (inst34.total_pages ≤ 1 ∨ (inst34.pg 1).free = true ∨ (inst34.pg 1).root = false) ∧
      bb_free_pages inst34 1 = inst34 :=
  ⟨Or.inr (Or.inl (by decide)),
    C5_free_reject_unchanged inst34 1 (Or.inr (Or.inl (by decide)))⟩

/-- C6.  Alignment: every successful `alloc(order)` returns a page index
divisible by `2^order`; and under the invariant every free block of
order `k` at index `i` is `2^k`-aligned with a FREE ROOT order-`k` root
descriptor and `2^k - 1` FREE non-ROOT descriptors after it. -/
theorem C6_alignment (s : BBInstance) (out : List (Nat × Nat)) (order : Nat)
    (hinv : InstInv s out) :
    (∀ idx, (bb_alloc_pages s order).1 = some idx → 2 ^ order ∣ idx) ∧
    (∀ k, ∀ i ∈ s.fl k, 2 ^ k ∣ i ∧ (s.pg i).free = true ∧ (s.pg i).root = true ∧
      (s.pg i).order = k ∧
      ∀ j, i < j → j < i + 2 ^ k → (s.pg j).free = true ∧ (s.pg j).root = false) := by
  constructor
  · intro idx hsome
    rcases bb_alloc_cases s out order hinv with ⟨hn, -, -⟩ | ⟨idx', hr, -, hdvd, -⟩
    · rw [hn] at hsome
      exact Option.noConfusion hsome
    · rw [hr] at hsome
      injection hsome with he
      subst he
      exact hdvd
  · intro k i hi
    obtain ⟨hT, hroot, hfree, hord, -⟩ := hinv.mem_ok k i hi
    obtain ⟨-, hdvd, -, hint⟩ := hinv.root_ok i hT hroot
    rw [hord] at hdvd hint
    refine ⟨hdvd, hfree, hroot, hord, ?_⟩
    intro j hj1 hj2
    obtain ⟨hr0, hf0⟩ := hint j hj1 hj2
    exact ⟨hf0, hr0⟩

/-- Witness for C6: the order-2 free block at index 0 of the freshly
initialised 4-page instance. -/
theorem C6_alignment_witness :
    2 ^ 2 ∣ 0 ∧ (inst34.pg 0).free = true ∧ (inst34.pg 0).root = true ∧
      (inst34.pg 0).order = 2 ∧
      ∀ j, 0 < j → j < 0 + 2 ^ 2 → (inst34.pg j).free = true ∧ (inst34.pg j).root = false :=
  (C6_alignment inst34 [] 2
    (buddy_system_init_inv 3 4 (by decide) inst34 (by decide)).1).2 2 0 (by decide)

end MentOS
